import Mathlib

/-!
# metaloadout.gg — verification of the spec against the code

Two subsystems are covered:

* the Catalog Ingestion & Merge Engine (Delta Normalizer and Catalog
  Reconciler).  This subsystem is described by the spec but its
  implementation is not among the repository's source files, so it is
  modelled here from the spec's own words (each such definition says so
  in its doc comment);
* the loadout share-token codec (`encodeLoadout` / `decodeLoadout`) and
  the gadget toggle step, which are embedded from
  `src/loadout-sharing.ts` and `src/index.tsx`.

Machine integers are modelled as `Nat`; bytes are `Nat` values below 256.
-/

namespace Metaloadout

/-! ## Duplicate-free list union (insertion-ordered set semantics) -/

/-- Modelled from the spec: append an element to a duplicate-free list
unless it is already present ("duplicate-free sets", "union without
duplication"). -/
def addUnique (acc : List String) (x : String) : List String :=
  if x ∈ acc then acc else acc ++ [x]

/-- Modelled from the spec: set union of `base` and `incoming`, keeping
`base`'s order and appending genuinely new elements of `incoming` in
order ("tags and notes are unioned (set union, not replacement)"). -/
def unionDedup (base incoming : List String) : List String :=
  incoming.foldl addUnique base

/-- Modelled from the spec: collapse a sequence into a duplicate-free
list, keeping the first occurrence of each element. -/
def dedup (l : List String) : List String :=
  unionDedup [] l

/-! ## Data model of the Catalog Ingestion & Merge Engine -/

/-- Modelled from the spec: one weapon, gadget, or specialization.
`id` is the identity key; `classRestriction` is the only scalar field
beyond the id; `tags` and `notes` are duplicate-free sets represented
as insertion-ordered lists. -/
structure CatalogEntity where
  id : String
  classRestriction : Option String
  tags : List String
  notes : List String
deriving Repr, DecidableEq

/-- Modelled from the spec: catalog-wide cross-item knowledge
(`synergy` and `counters` sets). -/
structure MetaFacts where
  synergy : List String
  counters : List String
deriving Repr, DecidableEq

/-- Modelled from the spec: per-category change counts recorded in a
provenance entry (`{added, updated}`). -/
structure CategorySummary where
  added : Nat
  updated : Nat
deriving Repr, DecidableEq

/-- Modelled from the spec: audit record of one ingestion event —
source description, timestamp, and a per-category change summary. -/
structure ProvenanceEntry where
  source : String
  timestamp : String
  weapons : CategorySummary
  gadgets : CategorySummary
  specializations : CategorySummary
deriving Repr, DecidableEq

/-- Modelled from the spec: the canonical catalog document. -/
structure Catalog where
  version : String
  updatedAt : String
  weapons : List CatalogEntity
  gadgets : List CatalogEntity
  specializations : List CatalogEntity
  meta : MetaFacts
  provenance : List ProvenanceEntry
deriving Repr, DecidableEq

/-- Modelled from the spec: the provenance descriptor supplied by the
caller of a merge (source identifier + timestamp). -/
structure ProvenanceDescriptor where
  source : String
  timestamp : String
deriving Repr, DecidableEq

/-- Modelled from the spec: an externally produced raw delta entity —
`id` may be missing, `tags`/`notes` sequences may contain duplicates. -/
structure RawEntity where
  id : Option String
  cls : Option String
  tags : List String
  notes : List String
deriving Repr, DecidableEq

/-- Modelled from the spec: the raw delta's optional meta section. -/
structure RawMeta where
  synergy : Option (List String)
  counters : Option (List String)
deriving Repr, DecidableEq

/-- Modelled from the spec: a raw extracted delta with optional entity
collections and optional meta facts. -/
structure RawDelta where
  weapons : Option (List RawEntity)
  gadgets : Option (List RawEntity)
  specializations : Option (List RawEntity)
  meta : Option RawMeta
deriving Repr, DecidableEq

/-- Modelled from the spec: a normalized delta with all four
entity/meta collections present and internally deduplicated. -/
structure Delta where
  weapons : List CatalogEntity
  gadgets : List CatalogEntity
  specializations : List CatalogEntity
  meta : MetaFacts
deriving Repr, DecidableEq

/-- Modelled from the spec: the two error kinds — `ValidationError`
(malformed delta) and `MergeError` (catalog-side corruption). -/
inductive EngineError where
  | validationError (msg : String)
  | mergeError (msg : String)
deriving Repr, DecidableEq

/-! ## Delta Normalizer -/

/-- Modelled from the spec: the maximum note length (240 characters). -/
def maxNoteLength : Nat := 240

/-- Modelled from the spec: the Normalizer lower-cases tags
defensively. -/
def lowerTag (s : String) : String :=
  String.mk (s.data.map Char.toLower)

/-- Modelled from the spec: normalize one raw entity.  Fails with
`ValidationError` if the `id` is missing or a note exceeds the maximum
length; otherwise collapses `tags` and `notes` into duplicate-free
sets. -/
def normalizeEntity (e : RawEntity) : Except EngineError CatalogEntity :=
  match e.id with
  | none => .error (.validationError "entity missing id")
  | some i =>
      if e.notes.any (fun n => decide (maxNoteLength < n.length)) then
        .error (.validationError "note exceeds maximum length")
      else
        .ok { id := i
              classRestriction := e.cls
              tags := dedup (e.tags.map lowerTag)
              notes := dedup e.notes }

/-- Modelled from the spec: normalize a sequence of raw entities;
the whole delta fails atomically on the first malformed record. -/
def normalizeEntities : List RawEntity → Except EngineError (List CatalogEntity)
  | [] => .ok []
  | e :: es =>
      match normalizeEntity e with
      | .error err => .error err
      | .ok c =>
          match normalizeEntities es with
          | .error err => .error err
          | .ok cs => .ok (c :: cs)

/-- Modelled from the spec: the Delta Normalizer.  Missing collections
become empty; meta facts are deduplicated by the same rule as notes. -/
def normalize (raw : RawDelta) : Except EngineError Delta :=
  match normalizeEntities (raw.weapons.getD []) with
  | .error err => .error err
  | .ok ws =>
      match normalizeEntities (raw.gadgets.getD []) with
      | .error err => .error err
      | .ok gs =>
          match normalizeEntities (raw.specializations.getD []) with
          | .error err => .error err
          | .ok ss =>
              .ok { weapons := ws
                    gadgets := gs
                    specializations := ss
                    meta := { synergy := dedup ((raw.meta.bind RawMeta.synergy).getD [])
                              counters := dedup ((raw.meta.bind RawMeta.counters).getD []) } }

/-- A raw entity the Normalizer must reject: missing `id`, or some note
longer than the maximum. -/
def badEntity (e : RawEntity) : Prop :=
  e.id = none ∨ ∃ n ∈ e.notes, maxNoteLength < n.length

/-- All raw entities of a raw delta, across the three categories. -/
def rawEntities (raw : RawDelta) : List RawEntity :=
  raw.weapons.getD [] ++ raw.gadgets.getD [] ++ raw.specializations.getD []

/-- The normalized entity produced when the id is present and no note is
over-long. -/
def normalizedOf (e : RawEntity) (i : String) : CatalogEntity :=
  { id := i
    classRestriction := e.cls
    tags := dedup (e.tags.map lowerTag)
    notes := dedup e.notes }

/-! ## Version parsing and formatting -/

/-- Numeric value of a decimal digit character, if it is one. -/
def digitVal (c : Char) : Option Nat :=
  if 48 ≤ c.toNat ∧ c.toNat ≤ 57 then some (c.toNat - 48) else none

/-- Fold decimal digits left-to-right onto an accumulator. -/
def parseNatAux : Nat → List Char → Option Nat
  | acc, [] => some acc
  | acc, c :: cs =>
      match digitVal c with
      | some d => parseNatAux (acc * 10 + d) cs
      | none => none

/-- Parse a non-empty all-digits character sequence as a `Nat`. -/
def parseNatDigits : List Char → Option Nat
  | [] => none
  | c :: cs => parseNatAux 0 (c :: cs)

/-- Split a character sequence at every dot. -/
def splitDots : List Char → List (List Char)
  | [] => [[]]
  | c :: cs =>
      if c = '.' then [] :: splitDots cs
      else
        match splitDots cs with
        | [] => [[c]]
        | p :: ps => (c :: p) :: ps

/-- Modelled from the spec: parse a catalog `version` string as three
dot-separated integers. -/
def parseVersion (v : String) : Option (Nat × Nat × Nat) :=
  match splitDots v.data with
  | [a, b, c] =>
      match parseNatDigits a, parseNatDigits b, parseNatDigits c with
      | some x, some y, some z => some (x, y, z)
      | _, _, _ => none
  | _ => none

/-- Decimal digits, fuel-bounded so that the recursion is structural
and reduces in the kernel. -/
def natDigitsAux : Nat → Nat → List Char
  | 0, _ => []
  | fuel + 1, n =>
      if n < 10 then [Char.ofNat (48 + n)]
      else natDigitsAux fuel (n / 10) ++ [Char.ofNat (48 + n % 10)]

/-- Decimal digits of a natural number, most significant first. -/
def natDigits (n : Nat) : List Char :=
  natDigitsAux (n + 1) n

/-- Modelled from the spec: render a `major.minor.patch` version
string. -/
def formatVersion (ma mi pa : Nat) : String :=
  String.mk (natDigits ma ++ ('.' :: (natDigits mi ++ ('.' :: natDigits pa))))

/-! ## Catalog Reconciler -/

/-- Find the first entity with the given id. -/
def findById (l : List CatalogEntity) (i : String) : Option CatalogEntity :=
  l.find? (fun e => e.id == i)

/-- Modelled from the spec: merge an incoming entity into an existing
one with the same id — existing scalar fields win on conflict, the
incoming scalar is taken only when the base's field is absent; tags and
notes are set-unioned. -/
def mergeEntity (base inc : CatalogEntity) : CatalogEntity :=
  { id := base.id
    classRestriction :=
      match base.classRestriction with
      | some c => some c
      | none => inc.classRestriction
    tags := unionDedup base.tags inc.tags
    notes := unionDedup base.notes inc.notes }

/-- Modelled from the spec: fold one incoming entity into a category —
merge into the entity with the same id when present (keeping its
position), otherwise append it as a new entity. -/
def upsertEntity (l : List CatalogEntity) (inc : CatalogEntity) :
    List CatalogEntity :=
  if (findById l inc.id).isSome then
    l.map (fun e => if e.id == inc.id then mergeEntity e inc else e)
  else l ++ [inc]

/-- Modelled from the spec: the per-category merge — carried-forward
entities keep the original catalog's order, genuinely new entities are
appended in delta order. -/
def mergeCategory (existing incoming : List CatalogEntity) :
    List CatalogEntity :=
  incoming.foldl upsertEntity existing

/-- Modelled from the spec: per-category counts of entities newly
inserted versus entities merged into an existing entity. -/
def categorySummary (existing incoming : List CatalogEntity) :
    CategorySummary :=
  { added := (incoming.filter (fun inc => (findById existing inc.id).isNone)).length
    updated := (incoming.filter (fun inc => (findById existing inc.id).isSome)).length }

/-- Modelled from the spec: the single provenance entry appended by a
successful merge. -/
def provEntryOf (cat : Catalog) (d : Delta) (desc : ProvenanceDescriptor) :
    ProvenanceEntry :=
  { source := desc.source
    timestamp := desc.timestamp
    weapons := categorySummary cat.weapons d.weapons
    gadgets := categorySummary cat.gadgets d.gadgets
    specializations := categorySummary cat.specializations d.specializations }

/-- Modelled from the spec: the successful-merge result — patch bump,
`updatedAt` from the descriptor, per-category reconciliation, meta set
union, one provenance entry appended. -/
def reconcile (cat : Catalog) (d : Delta) (desc : ProvenanceDescriptor)
    (ma mi pa : Nat) : Catalog :=
  { version := formatVersion ma mi (pa + 1)
    updatedAt := desc.timestamp
    weapons := mergeCategory cat.weapons d.weapons
    gadgets := mergeCategory cat.gadgets d.gadgets
    specializations := mergeCategory cat.specializations d.specializations
    meta := { synergy := unionDedup cat.meta.synergy d.meta.synergy
              counters := unionDedup cat.meta.counters d.meta.counters }
    provenance := cat.provenance ++ [provEntryOf cat d desc] }

/-- Modelled from the spec: the merge operation
`merge(currentCatalog, rawDelta, provenanceDescriptor)`.  It fails with
`MergeError` when the catalog's version string is malformed (for any
delta) and with the Normalizer's `ValidationError` when the delta is
malformed; on success it produces the reconciled catalog. -/
def merge (cat : Catalog) (raw : RawDelta) (desc : ProvenanceDescriptor) :
    Except EngineError Catalog :=
  match parseVersion cat.version with
  | none => .error (.mergeError "malformed catalog version")
  | some (ma, mi, pa) =>
      match normalize raw with
      | .error e => .error e
      | .ok d => .ok (reconcile cat d desc ma mi pa)

/-- A category collection is duplicate-free by `id` (spec invariant). -/
def idsNodup (l : List CatalogEntity) : Prop :=
  (l.map CatalogEntity.id).Nodup

instance (l : List CatalogEntity) : Decidable (idsNodup l) := by
  unfold idsNodup; infer_instance

/-- `m` already carries everything `i` contributes: `i`'s tags and notes
are included in `m`'s, and `i` has a scalar only where `m` has one. -/
def Covers (m i : CatalogEntity) : Prop :=
  (∀ t ∈ i.tags, t ∈ m.tags) ∧ (∀ t ∈ i.notes, t ∈ m.notes) ∧
    (m.classRestriction = none → i.classRestriction = none)

/-- Modelled from the spec: the fail-closed caller view — on error the
caller receives the original catalog together with the error. -/
def mergeOrKeep (cat : Catalog) (raw : RawDelta) (desc : ProvenanceDescriptor) :
    Catalog × Option EngineError :=
  match merge cat raw desc with
  | .ok c => (c, none)
  | .error e => (cat, some e)

/-- Per-category statement of the in-both merge rule: the merged
collection contains, for each id present in old and incoming, an entity
keeping the old scalars (incoming scalar only where the old one is
absent) whose tags and notes are the set unions. -/
def overlayOK (old inc new : List CatalogEntity) : Prop :=
  ∀ e ∈ old, ∀ i ∈ inc, e.id = i.id →
    ∃ m ∈ new, m.id = e.id ∧
      m.classRestriction = (match e.classRestriction with
        | some c => some c
        | none => i.classRestriction) ∧
      (∀ t, t ∈ m.tags ↔ t ∈ e.tags ∨ t ∈ i.tags) ∧
      (∀ t, t ∈ m.notes ↔ t ∈ e.notes ∨ t ∈ i.notes)

/-! ## Concrete inputs used by the witness theorems -/

def witCatalog : Catalog :=
  { version := "1.0.0"
    updatedAt := "2024-01-01T00:00:00Z"
    weapons := [{ id := "KS23", classRestriction := none, tags := ["shotgun"], notes := [] }]
    gadgets := []
    specializations := []
    meta := { synergy := [], counters := [] }
    provenance := [] }

def witCatalogBad : Catalog :=
  { version := "bad.version"
    updatedAt := "2024-01-01T00:00:00Z"
    weapons := []
    gadgets := []
    specializations := []
    meta := { synergy := [], counters := [] }
    provenance := [] }

def witRawEntity : RawEntity :=
  { id := some "KS23", cls := none, tags := ["close-range", "shotgun"], notes := ["strong vs light"] }

def witRaw : RawDelta :=
  { weapons := some [witRawEntity], gadgets := none, specializations := none, meta := none }

def witRawBadEntity : RawEntity :=
  { id := none, cls := none, tags := [], notes := [] }

def witRawBad : RawDelta :=
  { weapons := some [witRawBadEntity], gadgets := none, specializations := none, meta := none }

def witDesc : ProvenanceDescriptor :=
  { source := "transcript-1", timestamp := "2024-02-02T00:00:00Z" }

def witDelta : Delta :=
  { weapons := [{ id := "KS23"
                  classRestriction := none
                  tags := ["close-range", "shotgun"]
                  notes := ["strong vs light"] }]
    gadgets := []
    specializations := []
    meta := { synergy := [], counters := [] } }

def witMerged : Catalog :=
  { version := "1.0.1"
    updatedAt := "2024-02-02T00:00:00Z"
    weapons := [{ id := "KS23"
                  classRestriction := none
                  tags := ["shotgun", "close-range"]
                  notes := ["strong vs light"] }]
    gadgets := []
    specializations := []
    meta := { synergy := [], counters := [] }
    provenance := [{ source := "transcript-1"
                     timestamp := "2024-02-02T00:00:00Z"
                     weapons := { added := 0, updated := 1 }
                     gadgets := { added := 0, updated := 0 }
                     specializations := { added := 0, updated := 0 } }] }

/-! ## JSON model

`JSON.stringify` / `JSON.parse` are platform builtins used by
`src/loadout-sharing.ts`; they are modelled here over a JSON value type.
Number literals are kept as raw text (the codec never produces numbers);
`\uXXXX` escapes are supported for non-surrogate code points — Lean
strings are sequences of Unicode scalar values, so lone surrogates,
which JavaScript strings can hold, are outside the model and rejected
by the parser. -/

def lbrace : Char := Char.ofNat 123

def rbrace : Char := Char.ofNat 125

inductive Json where
  | null
  | bool (b : Bool)
  | num (lit : String)
  | str (s : String)
  | arr (elems : List Json)
  | obj (members : List (String × Json))

def hexDigitChar (n : Nat) : Char :=
  if n < 10 then Char.ofNat (48 + n) else Char.ofNat (87 + n)

/-- One character of `JSON.stringify`'s string escaping. -/
def escapeChar (c : Char) : List Char :=
  if c = '"' then ['\\', '"']
  else if c = '\\' then ['\\', '\\']
  else if c = '\n' then ['\\', 'n']
  else if c = '\r' then ['\\', 'r']
  else if c = '\t' then ['\\', 't']
  else if c.toNat = 8 then ['\\', 'b']
  else if c.toNat = 12 then ['\\', 'f']
  else if c.toNat < 32 then
    ['\\', 'u', '0', '0', hexDigitChar (c.toNat / 16), hexDigitChar (c.toNat % 16)]
  else [c]

def escapeString (cs : List Char) : List Char :=
  (cs.map escapeChar).flatten

/-- A `JSON.stringify` string literal. -/
def printString (cs : List Char) : List Char :=
  '"' :: escapeString cs ++ ['"']

def isJsonWs (c : Char) : Bool :=
  c == ' ' || c == '\t' || c == '\n' || c == '\r'

def skipWs : List Char → List Char
  | [] => []
  | c :: cs => if isJsonWs c then skipWs cs else c :: cs

def hexVal (c : Char) : Option Nat :=
  if 48 ≤ c.toNat ∧ c.toNat ≤ 57 then some (c.toNat - 48)
  else if 97 ≤ c.toNat ∧ c.toNat ≤ 102 then some (c.toNat - 87)
  else if 65 ≤ c.toNat ∧ c.toNat ≤ 70 then some (c.toNat - 55)
  else none

def unescapeChar (c : Char) : Option Char :=
  if c = '"' then some '"'
  else if c = '\\' then some '\\'
  else if c = '/' then some '/'
  else if c = 'b' then some (Char.ofNat 8)
  else if c = 'f' then some (Char.ofNat 12)
  else if c = 'n' then some '\n'
  else if c = 'r' then some '\r'
  else if c = 't' then some '\t'
  else none

/-- Fuel-bounded body of a JSON string literal, after the opening
quote: returns the decoded characters and the input after the closing
quote (one unit of fuel per source character batch, so the input length
is always enough fuel). -/
def parseStringBodyAux : Nat → List Char → Option (List Char × List Char)
  | 0, _ => none
  | _ + 1, [] => none
  | fuel + 1, c :: cs =>
      if c = '"' then some ([], cs)
      else if c = '\\' then
        match cs with
        | [] => none
        | e :: cs1 =>
            if e = 'u' then
              match cs1 with
              | h1 :: h2 :: h3 :: h4 :: cs2 =>
                  match hexVal h1, hexVal h2, hexVal h3, hexVal h4 with
                  | some a, some b, some c3, some d =>
                      if 0xD800 ≤ a * 4096 + b * 256 + c3 * 16 + d ∧
                          a * 4096 + b * 256 + c3 * 16 + d < 0xE000 then none
                      else
                        match parseStringBodyAux fuel cs2 with
                        | some (body, rest) =>
                            some (Char.ofNat (a * 4096 + b * 256 + c3 * 16 + d) :: body, rest)
                        | none => none
                  | _, _, _, _ => none
              | _ => none
            else
              match unescapeChar e with
              | some d =>
                  match parseStringBodyAux fuel cs1 with
                  | some (body, rest) => some (d :: body, rest)
                  | none => none
              | none => none
      else if c.toNat < 32 then none
      else
        match parseStringBodyAux fuel cs with
        | some (body, rest) => some (c :: body, rest)
        | none => none

/-- Body of a JSON string literal, after the opening quote. -/
def parseStringBody (cs : List Char) : Option (List Char × List Char) :=
  parseStringBodyAux cs.length cs

def isDigit (c : Char) : Bool :=
  48 ≤ c.toNat && c.toNat ≤ 57

def spanDigits : List Char → List Char × List Char
  | [] => ([], [])
  | c :: cs =>
      if isDigit c then
        let p := spanDigits cs
        (c :: p.1, p.2)
      else ([], c :: cs)

def parseIntPart : List Char → Option (List Char × List Char)
  | [] => none
  | c :: cs =>
      if c = '0' then some ([c], cs)
      else if isDigit c then
        let p := spanDigits cs
        some (c :: p.1, p.2)
      else none

def parseFracPart : List Char → Option (List Char × List Char)
  | [] => some ([], [])
  | c :: cs =>
      if c = '.' then
        match spanDigits cs with
        | ([], _) => none
        | (ds, rest) => some ('.' :: ds, rest)
      else some ([], c :: cs)

def parseExpPart : List Char → Option (List Char × List Char)
  | [] => some ([], [])
  | c :: cs =>
      if c = 'e' ∨ c = 'E' then
        match cs with
        | s :: t =>
            if s = '+' ∨ s = '-' then
              match spanDigits t with
              | ([], _) => none
              | (ds, rest) => some (c :: s :: ds, rest)
            else
              match spanDigits (s :: t) with
              | ([], _) => none
              | (ds, rest) => some (c :: ds, rest)
        | [] => none
      else some ([], c :: cs)

/-- A JSON number literal, returned as its raw text. -/
def parseNumberLit (cs : List Char) : Option (List Char × List Char) :=
  match cs with
  | [] => none
  | c :: t =>
      let p := if c = '-' then (['-'], t) else (([] : List Char), c :: t)
      match parseIntPart p.2 with
      | none => none
      | some (ip, cs1) =>
          match parseFracPart cs1 with
          | none => none
          | some (fp, cs2) =>
              match parseExpPart cs2 with
              | none => none
              | some (ep, cs3) => some (p.1 ++ ip ++ fp ++ ep, cs3)

mutual

/-- Fuel-bounded JSON value parser (the fuel only bounds nesting). -/
def parseVal : Nat → List Char → Option (Json × List Char)
  | 0, _ => none
  | fuel + 1, cs0 =>
      match skipWs cs0 with
      | [] => none
      | c :: cs =>
          if c = '"' then
            match parseStringBody cs with
            | some (body, rest) => some (.str (String.mk body), rest)
            | none => none
          else if c = '[' then
            match skipWs cs with
            | r :: rest =>
                if r = ']' then some (.arr [], rest)
                else
                  match parseElems fuel (r :: rest) with
                  | some (xs, rest2) => some (.arr xs, rest2)
                  | none => none
            | [] => none
          else if c = lbrace then
            match skipWs cs with
            | r :: rest =>
                if r = rbrace then some (.obj [], rest)
                else
                  match parseMembers fuel (r :: rest) with
                  | some (kvs, rest2) => some (.obj kvs, rest2)
                  | none => none
            | [] => none
          else if c = 't' then
            match cs with
            | 'r' :: 'u' :: 'e' :: rest => some (.bool true, rest)
            | _ => none
          else if c = 'f' then
            match cs with
            | 'a' :: 'l' :: 's' :: 'e' :: rest => some (.bool false, rest)
            | _ => none
          else if c = 'n' then
            match cs with
            | 'u' :: 'l' :: 'l' :: rest => some (.null, rest)
            | _ => none
          else
            match parseNumberLit (c :: cs) with
            | some (lit, rest) => some (.num (String.mk lit), rest)
            | none => none

/-- Elements of a non-empty JSON array, up to and including `]`. -/
def parseElems : Nat → List Char → Option (List Json × List Char)
  | 0, _ => none
  | fuel + 1, cs =>
      match parseVal fuel cs with
      | none => none
      | some (v, rest) =>
          match skipWs rest with
          | ',' :: rest2 =>
              match parseElems fuel rest2 with
              | some (xs, rest3) => some (v :: xs, rest3)
              | none => none
          | ']' :: rest2 => some ([v], rest2)
          | _ => none

/-- Members of a non-empty JSON object, up to and including the closing
brace. -/
def parseMembers : Nat → List Char → Option (List (String × Json) × List Char)
  | 0, _ => none
  | fuel + 1, cs =>
      match skipWs cs with
      | '"' :: cs1 =>
          match parseStringBody cs1 with
          | none => none
          | some (k, rest) =>
              match skipWs rest with
              | ':' :: rest1 =>
                  match parseVal fuel rest1 with
                  | none => none
                  | some (v, rest2) =>
                      match skipWs rest2 with
                      | ',' :: rest3 =>
                          match parseMembers fuel rest3 with
                          | some (kvs, rest4) => some ((String.mk k, v) :: kvs, rest4)
                          | none => none
                      | r :: rest3 =>
                          if r = rbrace then some ([(String.mk k, v)], rest3)
                          else none
                      | [] => none
              | _ => none
      | _ => none

end

/-- Model of `JSON.parse`: parse one value, allow surrounding
whitespace, require the whole input to be consumed. -/
def parseJson (cs : List Char) : Option Json :=
  match parseVal (cs.length + 1) cs with
  | some (j, rest) => if skipWs rest = [] then some j else none
  | none => none

/-! ## UTF-8 (the `unescape(encodeURIComponent(.))` /
`decodeURIComponent(escape(.))` pair of the source is byte-level UTF-8
encoding and decoding) -/

def utf8EncodeChar (c : Char) : List Nat :=
  let n := c.toNat
  if n < 0x80 then [n]
  else if n < 0x800 then [0xC0 + n / 64, 0x80 + n % 64]
  else if n < 0x10000 then [0xE0 + n / 4096, 0x80 + n / 64 % 64, 0x80 + n % 64]
  else [0xF0 + n / 262144, 0x80 + n / 4096 % 64, 0x80 + n / 64 % 64, 0x80 + n % 64]

def utf8Encode (cs : List Char) : List Nat :=
  (cs.map utf8EncodeChar).flatten

def isCont (b : Nat) : Bool :=
  0x80 ≤ b && b < 0xC0

/-- Decode one UTF-8 sequence from `b :: bs`, returning the code point
and the remaining bytes.  Rejects truncated or non-continuation
sequences, overlong encodings, surrogates, and out-of-range code
points, as `decodeURIComponent` does. -/
def decodeOne (b : Nat) (bs : List Nat) : Option (Nat × List Nat) :=
  if b < 0x80 then some (b, bs)
  else if b < 0xC0 then none
  else if b < 0xE0 then
    match bs with
    | b1 :: bs1 =>
        if isCont b1 then
          if (b - 0xC0) * 64 + (b1 - 0x80) < 0x80 then none
          else some ((b - 0xC0) * 64 + (b1 - 0x80), bs1)
        else none
    | [] => none
  else if b < 0xF0 then
    match bs with
    | b1 :: b2 :: bs1 =>
        if isCont b1 && isCont b2 then
          if (b - 0xE0) * 4096 + (b1 - 0x80) * 64 + (b2 - 0x80) < 0x800 ∨
              (0xD800 ≤ (b - 0xE0) * 4096 + (b1 - 0x80) * 64 + (b2 - 0x80) ∧
                (b - 0xE0) * 4096 + (b1 - 0x80) * 64 + (b2 - 0x80) < 0xE000) then none
          else some ((b - 0xE0) * 4096 + (b1 - 0x80) * 64 + (b2 - 0x80), bs1)
        else none
    | _ => none
  else if b < 0xF8 then
    match bs with
    | b1 :: b2 :: b3 :: bs1 =>
        if isCont b1 && isCont b2 && isCont b3 then
          if (b - 0xF0) * 262144 + (b1 - 0x80) * 4096 + (b2 - 0x80) * 64 + (b3 - 0x80) < 0x10000 ∨
              0x110000 ≤ (b - 0xF0) * 262144 + (b1 - 0x80) * 4096 + (b2 - 0x80) * 64 + (b3 - 0x80) then
            none
          else some ((b - 0xF0) * 262144 + (b1 - 0x80) * 4096 + (b2 - 0x80) * 64 + (b3 - 0x80), bs1)
        else none
    | _ => none
  else none

/-- Fuel-bounded UTF-8 decoding loop (one unit of fuel per decoded code
point). -/
def utf8DecodeAux : Nat → List Nat → Option (List Char)
  | _, [] => some []
  | 0, _ :: _ => none
  | fuel + 1, b :: bs =>
      match decodeOne b bs with
      | some (n, rest) =>
          match utf8DecodeAux fuel rest with
          | some t => some (Char.ofNat n :: t)
          | none => none
      | none => none

/-- Strict UTF-8 decoding of a whole byte list. -/
def utf8Decode (bs : List Nat) : Option (List Char) :=
  utf8DecodeAux bs.length bs

/-! ## Base64 (`btoa` / `atob`) and the URL-safe alphabet mapping -/

def b64Char (n : Nat) : Char :=
  if n < 26 then Char.ofNat (65 + n)
  else if n < 52 then Char.ofNat (97 + (n - 26))
  else if n < 62 then Char.ofNat (48 + (n - 52))
  else if n = 62 then '+'
  else '/'

def b64Index (c : Char) : Option Nat :=
  if 65 ≤ c.toNat ∧ c.toNat ≤ 90 then some (c.toNat - 65)
  else if 97 ≤ c.toNat ∧ c.toNat ≤ 122 then some (c.toNat - 97 + 26)
  else if 48 ≤ c.toNat ∧ c.toNat ≤ 57 then some (c.toNat - 48 + 52)
  else if c = '+' then some 62
  else if c = '/' then some 63
  else none

/-- `btoa` on a byte list: standard base64 with `=` padding. -/
def btoa : List Nat → List Char
  | [] => []
  | [b1] => [b64Char (b1 / 4), b64Char (b1 % 4 * 16), '=', '=']
  | [b1, b2] => [b64Char (b1 / 4), b64Char (b1 % 4 * 16 + b2 / 16), b64Char (b2 % 16 * 4), '=']
  | b1 :: b2 :: b3 :: rest =>
      b64Char (b1 / 4) :: b64Char (b1 % 4 * 16 + b2 / 16) ::
        b64Char (b2 % 16 * 4 + b3 / 64) :: b64Char (b3 % 64) :: btoa rest

/-- The sextets of a byte list (no padding). -/
def toSextets : List Nat → List Nat
  | [] => []
  | [b1] => [b1 / 4, b1 % 4 * 16]
  | [b1, b2] => [b1 / 4, b1 % 4 * 16 + b2 / 16, b2 % 16 * 4]
  | b1 :: b2 :: b3 :: rest =>
      b1 / 4 :: (b1 % 4 * 16 + b2 / 16) :: (b2 % 16 * 4 + b3 / 64) :: b3 % 64 :: toSextets rest

/-- Number of `=` padding characters `btoa` appends. -/
def padCount (bs : List Nat) : Nat :=
  if bs.length % 3 = 1 then 2 else if bs.length % 3 = 2 then 1 else 0

/-- Decode base64 sextet values back to bytes, discarding leftover bits
of a trailing partial group (forgiving-base64). -/
def sextetsToBytes : List Nat → Option (List Nat)
  | [] => some []
  | [_] => none
  | [a, b] => some [a * 4 + b / 16]
  | [a, b, c] => some [a * 4 + b / 16, b % 16 * 16 + c / 4]
  | a :: b :: c :: d :: rest =>
      match sextetsToBytes rest with
      | some t => some ((a * 4 + b / 16) :: (b % 16 * 16 + c / 4) :: (c % 4 * 64 + d) :: t)
      | none => none

def charsToSextets : List Char → Option (List Nat)
  | [] => some []
  | c :: rest =>
      match b64Index c with
      | some i =>
          match charsToSextets rest with
          | some t => some (i :: t)
          | none => none
      | none => none

def isB64Ws (c : Char) : Bool :=
  c == ' ' || c == '\t' || c == '\n' || c == '\r' || c.toNat == 12

/-- The forgiving-base64 padding strip: when the length is a multiple of
four, up to two trailing `=` are removed. -/
def stripPad (cs : List Char) : List Char :=
  if cs.length % 4 = 0 then
    if cs.reverse.take 2 = ['=', '='] then (cs.reverse.drop 2).reverse
    else if cs.reverse.take 1 = ['='] then (cs.reverse.drop 1).reverse
    else cs
  else cs

/-- `atob` on a character list (WHATWG forgiving-base64 decode),
producing bytes. -/
def atob (cs : List Char) : Option (List Nat) :=
  if (stripPad (cs.filter (fun c => !isB64Ws c))).length % 4 = 1 then none
  else
    match charsToSextets (stripPad (cs.filter (fun c => !isB64Ws c))) with
    | some sx => sextetsToBytes sx
    | none => none

/-- The `+` → `-`, `/` → `_` rewriting of `encodeLoadout`. -/
def urlSafe (c : Char) : Char :=
  if c = '+' then '-' else if c = '/' then '_' else c

/-- The `-` → `+`, `_` → `/` rewriting of `decodeLoadout`. -/
def urlUnsafe (c : Char) : Char :=
  if c = '-' then '+' else if c = '_' then '/' else c

def stripTrailingEq (cs : List Char) : List Char :=
  (cs.reverse.dropWhile (fun c => c == '=')).reverse

/-! ## The loadout share-token codec (`src/loadout-sharing.ts`) -/

structure Loadout where
  «class» : String
  weapon : String
  specialization : String
  gadgets : List String
deriving Repr, DecidableEq

def SCHEMA_VERSION : String := "v1"

/-- The `{ v, c, w, g, s }` payload of `encodeLoadout` as a JSON value
(`JSON.stringify` serializes own properties in insertion order). -/
def payloadJson (l : Loadout) : Json :=
  .obj [("v", .str SCHEMA_VERSION), ("c", .str l.«class»), ("w", .str l.weapon),
    ("g", .arr (l.gadgets.map .str)), ("s", .str l.specialization)]

/-- The element list of a `JSON.stringify`d array of strings. -/
def printElemsAux : List String → List Char
  | [] => []
  | [x] => printString x.data
  | x :: y :: rest => printString x.data ++ ',' :: printElemsAux (y :: rest)

/-- A `JSON.stringify`d array of strings. -/
def printStrList (xs : List String) : List Char :=
  '[' :: printElemsAux xs ++ [']']

/-- `JSON.stringify` of the payload (compact output, keys in insertion
order, strings escaped). -/
def printPayload (l : Loadout) : List Char :=
  lbrace :: (printString "v".data ++ ':' :: printString SCHEMA_VERSION.data ++ ',' ::
    (printString "c".data ++ ':' :: printString l.«class».data ++ ',' ::
      (printString "w".data ++ ':' :: printString l.weapon.data ++ ',' ::
        (printString "g".data ++ ':' :: printStrList l.gadgets ++ ',' ::
          (printString "s".data ++ ':' :: printString l.specialization.data ++ [rbrace])))))

/-- `encodeLoadout`: stringify the payload, UTF-8 encode, `btoa`, then
base64-url rewrite and padding strip. -/
def encodeLoadout (l : Loadout) : String :=
  String.mk (stripTrailingEq ((btoa (utf8Encode (printPayload l))).map urlSafe))

/-- JavaScript truthiness of a JSON value (`x || ''` takes the fallback
exactly when `x` is falsy).  A number literal is falsy when its mantissa
has no nonzero digit. -/
def jsTruthy : Json → Bool
  | .null => false
  | .bool b => b
  | .str s => !s.isEmpty
  | .num lit => (lit.data.takeWhile (fun c => c != 'e' && c != 'E')).any
      (fun c => 49 ≤ c.toNat && c.toNat ≤ 57)
  | .arr _ => true
  | .obj _ => true

def jsOr (v : Option Json) (dflt : Json) : Json :=
  match v with
  | some j => if jsTruthy j then j else dflt
  | none => dflt

/-- Property lookup on a parsed JSON object: later duplicate keys win,
as with `JSON.parse`; non-objects have no properties. -/
def lookupMember (kvs : List (String × Json)) (k : String) : Option Json :=
  match kvs with
  | [] => none
  | (k1, v) :: rest =>
      match lookupMember rest k with
      | some r => some r
      | none => if k1 = k then some v else none

def getProp (j : Json) (k : String) : Option Json :=
  match j with
  | .obj kvs => lookupMember kvs k
  | _ => none

/-- The runtime shape `decodeLoadout` actually returns: the source does
not validate that the payload fields are strings, so each field is a
JSON (JavaScript) value. -/
structure JSLoadout where
  «class» : Json
  weapon : Json
  specialization : Json
  gadgets : List Json

/-- The JS value of a well-typed `Loadout`. -/
def loadoutToJS (l : Loadout) : JSLoadout :=
  { «class» := .str l.«class»
    weapon := .str l.weapon
    specialization := .str l.specialization
    gadgets := l.gadgets.map .str }

/-- The `token + "===".slice((token.length + 3) % 4)` padding step. -/
def padToken (cs : List Char) : List Char :=
  cs ++ List.drop ((cs.length + 3) % 4) ['=', '=', '=']

/-- The base64-url stage of `decodeLoadout`: `atob` of the padded token
with `-` replaced by `+` and `_` replaced by `/`. -/
def tokenBytes (token : String) : Option (List Nat) :=
  atob ((padToken token.data).map urlUnsafe)

/-- `decodeLoadout`: try base64-url, UTF-8, `JSON.parse`, then check the
schema-version property and build the loadout with `|| ''` fallbacks;
any failure gives `none` (the source's `try/catch` returns `null`). -/
def decodeFields (obj : Json) : JSLoadout :=
  { «class» := jsOr (getProp obj "c") (.str "")
    weapon := jsOr (getProp obj "w") (.str "")
    specialization := jsOr (getProp obj "s") (.str "")
    gadgets :=
      match getProp obj "g" with
      | some (.arr xs) => xs
      | _ => [] }

def decodeLoadout (token : String) : Option JSLoadout :=
  match tokenBytes token with
  | none => none
  | some bytes =>
      match utf8Decode bytes with
      | none => none
      | some jsonChars =>
          match parseJson jsonChars with
          | none => none
          | some obj =>
              match getProp obj "v" with
              | some (.str ver) =>
                  if ver = SCHEMA_VERSION then some (decodeFields obj)
                  else none
              | _ => none

/-! ## The gadget toggle (`handleGadgetToggle` in `src/index.tsx`) -/

/-- `handleGadgetToggle`: remove the first occurrence when present
(`indexOf` / `splice`), append when absent and fewer than three gadgets
are selected, otherwise leave the list unchanged. -/
def handleGadgetToggle (gadgets : List String) (gadgetName : String) : List String :=
  if gadgets.contains gadgetName then gadgets.erase gadgetName
  else if gadgets.length < 3 then gadgets ++ [gadgetName]
  else gadgets

/-! ## Theorems -/

theorem mem_addUnique (acc : List String) (x y : String) :
    y ∈ addUnique acc x ↔ y ∈ acc ∨ y = x := by
  unfold addUnique
  by_cases h : x ∈ acc
  · simp only [if_pos h]
    constructor
    · exact Or.inl
    · rintro (hy | rfl)
      · exact hy
      · exact h
  · simp [if_neg h]

theorem mem_unionDedup (base incoming : List String) (y : String) :
    y ∈ unionDedup base incoming ↔ y ∈ base ∨ y ∈ incoming := by
  induction incoming generalizing base with
  | nil => simp [unionDedup]
  | cons x xs ih =>
      show y ∈ unionDedup (addUnique base x) xs ↔ _
      rw [ih, mem_addUnique]
      simp only [List.mem_cons]
      tauto

theorem nodup_addUnique (acc : List String) (x : String) (h : acc.Nodup) :
    (addUnique acc x).Nodup := by
  unfold addUnique
  by_cases hx : x ∈ acc
  · simpa [hx]
  · simp only [if_neg hx, List.nodup_append, List.nodup_cons]
    refine ⟨h, ⟨by simp, by simp⟩, ?_⟩
    simpa using hx

theorem nodup_unionDedup (base incoming : List String) (h : base.Nodup) :
    (unionDedup base incoming).Nodup := by
  induction incoming generalizing base with
  | nil => exact h
  | cons x xs ih => exact ih _ (nodup_addUnique base x h)

theorem nodup_dedup (l : List String) : (dedup l).Nodup :=
  nodup_unionDedup [] l List.nodup_nil

theorem mem_dedup (l : List String) (y : String) : y ∈ dedup l ↔ y ∈ l := by
  unfold dedup
  rw [mem_unionDedup]
  simp

theorem unionDedup_eq_self (base incoming : List String)
    (h : ∀ x ∈ incoming, x ∈ base) : unionDedup base incoming = base := by
  induction incoming generalizing base with
  | nil => rfl
  | cons x xs ih =>
      show unionDedup (addUnique base x) xs = base
      have hx : x ∈ base := h x (List.mem_cons_self x xs)
      rw [show addUnique base x = base by simp [addUnique, hx]]
      exact ih base fun y hy => h y (List.mem_cons_of_mem x hy)

theorem subset_unionDedup (base incoming : List String) :
    ∀ x ∈ incoming, x ∈ unionDedup base incoming := by
  intro x hx
  exact (mem_unionDedup base incoming x).2 (Or.inr hx)

theorem base_subset_unionDedup (base incoming : List String) :
    ∀ x ∈ base, x ∈ unionDedup base incoming := by
  intro x hx
  exact (mem_unionDedup base incoming x).2 (Or.inl hx)

theorem normalizeEntity_eq_none {e : RawEntity} (hid : e.id = none) :
    normalizeEntity e = .error (.validationError "entity missing id") := by
  unfold normalizeEntity
  rw [hid]

theorem normalizeEntity_eq_some {e : RawEntity} {i : String} (hid : e.id = some i) :
    normalizeEntity e =
      (if (e.notes.any fun n => decide (maxNoteLength < n.length)) = true then
        Except.error (EngineError.validationError "note exceeds maximum length")
      else Except.ok (normalizedOf e i)) := by
  unfold normalizeEntity normalizedOf
  rw [hid]

theorem normalizeEntity_error_iff (e : RawEntity) :
    (∃ err, normalizeEntity e = .error err) ↔ badEntity e := by
  unfold badEntity
  cases hid : e.id with
  | none => exact ⟨fun _ => Or.inl rfl, fun _ => ⟨_, normalizeEntity_eq_none hid⟩⟩
  | some i =>
      have hred := normalizeEntity_eq_some hid
      by_cases hl : (e.notes.any fun n => decide (maxNoteLength < n.length)) = true
      · rw [if_pos hl] at hred
        simp only [List.any_eq_true, decide_eq_true_eq] at hl
        obtain ⟨n, hn, hlen⟩ := hl
        exact ⟨fun _ => Or.inr ⟨n, hn, hlen⟩, fun _ => ⟨_, hred⟩⟩
      · rw [if_neg hl] at hred
        constructor
        · rintro ⟨err, herr⟩
          rw [hred] at herr; cases herr
        · rintro (hcon | ⟨n, hn, hlen⟩)
          · cases hcon
          · exact absurd (List.any_eq_true.2 ⟨n, hn, by simpa using hlen⟩) hl

theorem normalizeEntity_error_validation {e : RawEntity} {err : EngineError}
    (h : normalizeEntity e = .error err) : ∃ msg, err = .validationError msg := by
  cases hid : e.id with
  | none =>
      rw [normalizeEntity_eq_none hid] at h
      cases h; exact ⟨_, rfl⟩
  | some i =>
      rw [normalizeEntity_eq_some hid] at h
      by_cases hl : (e.notes.any fun n => decide (maxNoteLength < n.length)) = true
      · rw [if_pos hl] at h; cases h; exact ⟨_, rfl⟩
      · rw [if_neg hl] at h; cases h

theorem normalizeEntity_ok_nodup {e : RawEntity} {c : CatalogEntity}
    (h : normalizeEntity e = .ok c) : c.tags.Nodup ∧ c.notes.Nodup := by
  cases hid : e.id with
  | none => rw [normalizeEntity_eq_none hid] at h; cases h
  | some i =>
      rw [normalizeEntity_eq_some hid] at h
      by_cases hl : (e.notes.any fun n => decide (maxNoteLength < n.length)) = true
      · rw [if_pos hl] at h; cases h
      · rw [if_neg hl] at h
        cases h
        exact ⟨nodup_dedup _, nodup_dedup _⟩

theorem normalizeEntities_error_iff (es : List RawEntity) :
    (∃ err, normalizeEntities es = .error err) ↔ ∃ e ∈ es, badEntity e := by
  induction es with
  | nil =>
      constructor
      · rintro ⟨err, herr⟩; cases herr
      · rintro ⟨e, he, _⟩; cases he
  | cons e es ih =>
      unfold normalizeEntities
      cases he : normalizeEntity e with
      | error err =>
          have hbad : badEntity e := (normalizeEntity_error_iff e).1 ⟨err, he⟩
          simp only
          exact ⟨fun _ => ⟨e, List.mem_cons_self e es, hbad⟩, fun _ => ⟨err, rfl⟩⟩
      | ok c =>
          cases hes : normalizeEntities es with
          | error err =>
              have : ∃ e ∈ es, badEntity e := ih.1 ⟨err, hes⟩
              obtain ⟨e', he', hbad'⟩ := this
              simp only
              exact ⟨fun _ => ⟨e', List.mem_cons_of_mem e he', hbad'⟩, fun _ => ⟨err, rfl⟩⟩
          | ok cs =>
              simp only
              constructor
              · rintro ⟨err, herr⟩; cases herr
              · rintro ⟨e', he', hbad'⟩
                rcases List.mem_cons.1 he' with hcase | hmem
                · subst hcase
                  obtain ⟨err, herr⟩ := (normalizeEntity_error_iff e').2 hbad'
                  rw [he] at herr; cases herr
                · obtain ⟨err, herr⟩ := ih.2 ⟨e', hmem, hbad'⟩
                  rw [hes] at herr; cases herr

theorem normalizeEntities_error_validation {es : List RawEntity} {err : EngineError}
    (h : normalizeEntities es = .error err) : ∃ msg, err = .validationError msg := by
  induction es with
  | nil => cases h
  | cons e es ih =>
      unfold normalizeEntities at h
      cases he : normalizeEntity e with
      | error err' =>
          rw [he] at h
          cases h
          exact normalizeEntity_error_validation he
      | ok c =>
          rw [he] at h
          cases hes : normalizeEntities es with
          | error err' => rw [hes] at h; cases h; exact ih hes
          | ok cs => rw [hes] at h; cases h

theorem normalizeEntities_ok_nodup {es : List RawEntity} {cs : List CatalogEntity}
    (h : normalizeEntities es = .ok cs) :
    ∀ c ∈ cs, c.tags.Nodup ∧ c.notes.Nodup := by
  induction es generalizing cs with
  | nil => cases h; intro c hc; cases hc
  | cons e es ih =>
      unfold normalizeEntities at h
      cases he : normalizeEntity e with
      | error err => rw [he] at h; cases h
      | ok c0 =>
          rw [he] at h
          cases hes : normalizeEntities es with
          | error err => rw [hes] at h; cases h
          | ok cs0 =>
              rw [hes] at h
              cases h
              intro c hc
              rcases List.mem_cons.1 hc with hcase | hmem
              · subst hcase; exact normalizeEntity_ok_nodup he
              · exact ih hes c hmem

theorem normalize_error_iff (raw : RawDelta) :
    (∃ err, normalize raw = .error err) ↔ ∃ e ∈ rawEntities raw, badEntity e := by
  unfold normalize rawEntities
  cases hw : normalizeEntities (raw.weapons.getD []) with
  | error err =>
      obtain ⟨e, he, hbad⟩ := (normalizeEntities_error_iff _).1 ⟨err, hw⟩
      simp only
      exact ⟨fun _ => ⟨e, by simp [he], hbad⟩, fun _ => ⟨err, rfl⟩⟩
  | ok ws =>
      cases hg : normalizeEntities (raw.gadgets.getD []) with
      | error err =>
          obtain ⟨e, he, hbad⟩ := (normalizeEntities_error_iff _).1 ⟨err, hg⟩
          simp only
          exact ⟨fun _ => ⟨e, by simp [he], hbad⟩, fun _ => ⟨err, rfl⟩⟩
      | ok gs =>
          cases hs : normalizeEntities (raw.specializations.getD []) with
          | error err =>
              obtain ⟨e, he, hbad⟩ := (normalizeEntities_error_iff _).1 ⟨err, hs⟩
              simp only
              exact ⟨fun _ => ⟨e, by simp [he], hbad⟩, fun _ => ⟨err, rfl⟩⟩
          | ok ss =>
              simp only
              constructor
              · rintro ⟨err, herr⟩; cases herr
              · rintro ⟨e, he, hbad⟩
                obtain ⟨err, herr⟩ := (normalizeEntity_error_iff e).2 hbad
                rcases List.mem_append.1 he with he' | he'
                · rcases List.mem_append.1 he' with he'' | he''
                  · obtain ⟨err2, h2⟩ := (normalizeEntities_error_iff _).2 ⟨e, he'', hbad⟩
                    rw [hw] at h2; cases h2
                  · obtain ⟨err2, h2⟩ := (normalizeEntities_error_iff _).2 ⟨e, he'', hbad⟩
                    rw [hg] at h2; cases h2
                · obtain ⟨err2, h2⟩ := (normalizeEntities_error_iff _).2 ⟨e, he', hbad⟩
                  rw [hs] at h2; cases h2

theorem normalize_error_validation {raw : RawDelta} {err : EngineError}
    (h : normalize raw = .error err) : ∃ msg, err = .validationError msg := by
  unfold normalize at h
  cases hw : normalizeEntities (raw.weapons.getD []) with
  | error e1 => rw [hw] at h; cases h; exact normalizeEntities_error_validation hw
  | ok ws =>
      rw [hw] at h
      cases hg : normalizeEntities (raw.gadgets.getD []) with
      | error e1 => rw [hg] at h; cases h; exact normalizeEntities_error_validation hg
      | ok gs =>
          rw [hg] at h
          cases hs : normalizeEntities (raw.specializations.getD []) with
          | error e1 => rw [hs] at h; cases h; exact normalizeEntities_error_validation hs
          | ok ss => rw [hs] at h; cases h

theorem normalize_ok_nodup {raw : RawDelta} {d : Delta}
    (h : normalize raw = .ok d) :
    (∀ c ∈ d.weapons ++ d.gadgets ++ d.specializations,
        c.tags.Nodup ∧ c.notes.Nodup) ∧
      d.meta.synergy.Nodup ∧ d.meta.counters.Nodup := by
  unfold normalize at h
  cases hw : normalizeEntities (raw.weapons.getD []) with
  | error e1 => rw [hw] at h; cases h
  | ok ws =>
      rw [hw] at h
      cases hg : normalizeEntities (raw.gadgets.getD []) with
      | error e1 => rw [hg] at h; cases h
      | ok gs =>
          rw [hg] at h
          cases hs : normalizeEntities (raw.specializations.getD []) with
          | error e1 => rw [hs] at h; cases h
          | ok ss =>
              rw [hs] at h
              cases h
              refine ⟨?_, nodup_dedup _, nodup_dedup _⟩
              intro c hc
              rcases List.mem_append.1 hc with hc' | hc'
              · rcases List.mem_append.1 hc' with hc'' | hc''
                · exact normalizeEntities_ok_nodup hw c hc''
                · exact normalizeEntities_ok_nodup hg c hc''
              · exact normalizeEntities_ok_nodup hs c hc'

theorem natDigitsAux_fuel_irrel :
    ∀ fuel fuel' n, n < fuel → n < fuel' →
      natDigitsAux fuel n = natDigitsAux fuel' n := by
  intro fuel
  induction fuel with
  | zero => intro fuel' n h; omega
  | succ fuel ih =>
      intro fuel' n h h'
      cases fuel' with
      | zero => omega
      | succ fuel' =>
          show (if n < 10 then _ else _) = (if n < 10 then _ else _)
          by_cases h10 : n < 10
          · rw [if_pos h10, if_pos h10]
          · rw [if_neg h10, if_neg h10,
              ih fuel' (n / 10) (by omega) (by omega)]

theorem natDigits_eq (n : Nat) :
    natDigits n = if n < 10 then [Char.ofNat (48 + n)]
      else natDigits (n / 10) ++ [Char.ofNat (48 + n % 10)] := by
  show natDigitsAux (n + 1) n = _
  by_cases h10 : n < 10
  · rw [if_pos h10]
    show (if n < 10 then _ else _) = _
    rw [if_pos h10]
  · rw [if_neg h10]
    show (if n < 10 then _ else _) = _
    rw [if_neg h10]
    unfold natDigits
    rw [natDigitsAux_fuel_irrel n (n / 10 + 1) (n / 10) (by omega) (by omega)]

theorem natDigits_all_digit (n : Nat) :
    ∀ x ∈ natDigits n, ∃ d, d < 10 ∧ x = Char.ofNat (48 + d) := by
  induction n using Nat.strong_induction_on with
  | _ n ih =>
      intro x hx
      rw [natDigits_eq] at hx
      by_cases h : n < 10
      · rw [if_pos h] at hx
        simp only [List.mem_singleton] at hx
        exact ⟨n, h, hx⟩
      · rw [if_neg h] at hx
        rcases List.mem_append.1 hx with hx | hx
        · exact ih (n / 10) (Nat.div_lt_self (by omega) (by omega)) x hx
        · simp only [List.mem_singleton] at hx
          exact ⟨n % 10, Nat.mod_lt _ (by omega), hx⟩

theorem natDigits_ne_nil (n : Nat) : natDigits n ≠ [] := by
  rw [natDigits_eq]
  by_cases h : n < 10
  · rw [if_pos h]; simp
  · rw [if_neg h]; simp

theorem digitVal_ofNat (d : Nat) (h : d < 10) :
    digitVal (Char.ofNat (48 + d)) = some d := by
  interval_cases d <;> decide

theorem digit_ne_dot (d : Nat) (h : d < 10) : Char.ofNat (48 + d) ≠ '.' := by
  interval_cases d <;> decide

theorem natDigits_no_dot (n : Nat) : '.' ∉ natDigits n := by
  intro hmem
  obtain ⟨d, hd, hx⟩ := natDigits_all_digit n '.' hmem
  exact digit_ne_dot d hd hx.symm

theorem parseNatAux_append (acc : Nat) (xs ys : List Char) :
    parseNatAux acc (xs ++ ys) =
      (parseNatAux acc xs).bind (fun m => parseNatAux m ys) := by
  induction xs generalizing acc with
  | nil => rfl
  | cons c cs ih =>
      simp only [List.cons_append, parseNatAux]
      cases digitVal c with
      | none => rfl
      | some d => exact ih _

theorem parseNatAux_natDigits (n : Nat) :
    ∀ acc, parseNatAux acc (natDigits n) =
      some (acc * 10 ^ (natDigits n).length + n) := by
  induction n using Nat.strong_induction_on with
  | _ n ih =>
      intro acc
      rw [natDigits_eq]
      by_cases h : n < 10
      · rw [if_pos h]
        simp [parseNatAux, digitVal_ofNat n h]
      · rw [if_neg h]
        rw [parseNatAux_append, ih (n / 10) (Nat.div_lt_self (by omega) (by omega)) acc]
        simp only [Option.some_bind, parseNatAux,
          digitVal_ofNat (n % 10) (Nat.mod_lt _ (by omega))]
        have key : ∀ Q : Nat, (Q + n / 10) * 10 + n % 10 = Q * 10 + n := by
          intro Q; omega
        congr 1
        simp only [List.length_append, List.length_singleton]
        rw [key, pow_succ, ← mul_assoc]

theorem parseNatDigits_natDigits (n : Nat) :
    parseNatDigits (natDigits n) = some n := by
  have hne := natDigits_ne_nil n
  rcases hd : natDigits n with _ | ⟨c, cs⟩
  · exact absurd hd hne
  · show parseNatAux 0 (c :: cs) = some n
    have := parseNatAux_natDigits n 0
    rw [hd] at this
    simpa using this

theorem splitDots_ne_nil (cs : List Char) : splitDots cs ≠ [] := by
  induction cs with
  | nil => simp [splitDots]
  | cons c cs ih =>
      rw [splitDots]
      by_cases h : c = '.'
      · simp [h]
      · rw [if_neg h]
        rcases hs : splitDots cs with _ | ⟨p, ps⟩ <;> simp

theorem splitDots_no_dot (cs : List Char) (h : '.' ∉ cs) :
    splitDots cs = [cs] := by
  induction cs with
  | nil => rfl
  | cons c cs ih =>
      have hc : c ≠ '.' := fun hc => h (hc ▸ List.mem_cons_self c cs)
      have hcs : '.' ∉ cs := fun hm => h (List.mem_cons_of_mem c hm)
      rw [splitDots, if_neg hc, ih hcs]

theorem splitDots_append_dot (xs ys : List Char) (h : '.' ∉ xs) :
    splitDots (xs ++ '.' :: ys) = xs :: splitDots ys := by
  induction xs with
  | nil => simp [splitDots]
  | cons c cs ih =>
      have hc : c ≠ '.' := fun hc => h (hc ▸ List.mem_cons_self c cs)
      have hcs : '.' ∉ cs := fun hm => h (List.mem_cons_of_mem c hm)
      simp only [List.cons_append]
      rw [splitDots, if_neg hc, ih hcs]

theorem parseVersion_formatVersion (ma mi pa : Nat) :
    parseVersion (formatVersion ma mi pa) = some (ma, mi, pa) := by
  have hdata : (String.mk (natDigits ma ++ ('.' :: (natDigits mi ++ ('.' :: natDigits pa))))).data
      = natDigits ma ++ ('.' :: (natDigits mi ++ ('.' :: natDigits pa))) := rfl
  unfold parseVersion formatVersion
  rw [hdata, splitDots_append_dot _ _ (natDigits_no_dot ma),
    splitDots_append_dot _ _ (natDigits_no_dot mi),
    splitDots_no_dot _ (natDigits_no_dot pa)]
  simp [parseNatDigits_natDigits]

theorem mergeEntity_id (b i : CatalogEntity) : (mergeEntity b i).id = b.id := rfl

theorem eq_of_mem_of_idsNodup {l : List CatalogEntity} {a b : CatalogEntity}
    (hn : idsNodup l) (ha : a ∈ l) (hb : b ∈ l) (hid : a.id = b.id) : a = b :=
  List.inj_on_of_nodup_map hn ha hb hid

theorem findById_eq_some_of_mem {l : List CatalogEntity} {e : CatalogEntity}
    (hn : idsNodup l) (he : e ∈ l) : findById l e.id = some e := by
  have hs : (l.find? (fun x => x.id == e.id)).isSome := by
    rw [List.find?_isSome]
    exact ⟨e, he, by simp⟩
  obtain ⟨x, hx⟩ := Option.isSome_iff_exists.1 hs
  have hxm : x ∈ l := List.mem_of_find?_eq_some hx
  have hxid : x.id = e.id := by simpa using List.find?_some hx
  rw [findById, hx, eq_of_mem_of_idsNodup hn hxm he hxid]

theorem findById_eq_none {l : List CatalogEntity} {k : String} :
    findById l k = none ↔ ∀ e ∈ l, e.id ≠ k := by
  unfold findById
  rw [List.find?_eq_none]
  simp

theorem findById_map_merge (l : List CatalogEntity) (inc : CatalogEntity)
    (k : String) :
    findById (l.map (fun e => if e.id == inc.id then mergeEntity e inc else e)) k
      = (findById l k).map (fun e => if e.id == inc.id then mergeEntity e inc else e) := by
  unfold findById
  rw [List.find?_map]
  have hp : ((fun e => e.id == k) ∘ fun e => if e.id == inc.id then mergeEntity e inc else e)
      = fun e => e.id == k := by
    funext e
    by_cases h : e.id = inc.id <;> simp [h, mergeEntity_id]
  rw [hp]

theorem findById_upsert_ne (l : List CatalogEntity) (inc : CatalogEntity)
    (k : String) (hk : inc.id ≠ k) :
    findById (upsertEntity l inc) k = findById l k := by
  unfold upsertEntity
  by_cases hf : (findById l inc.id).isSome
  · rw [if_pos hf, findById_map_merge]
    cases hx : findById l k with
    | none => rfl
    | some x =>
        have hxid : x.id = k := by simpa using List.find?_some hx
        have : ¬x.id = inc.id := by rw [hxid]; exact fun h => hk h.symm
        simp [this]
  · rw [if_neg hf]
    unfold findById
    rw [List.find?_append]
    cases hx : List.find? (fun e => e.id == k) l with
    | some x => rfl
    | none =>
        simp only [Option.none_or]
        have hbeq : (inc.id == k) = false := by simpa using hk
        simp [List.find?, hbeq]

theorem findById_upsert_found {l : List CatalogEntity} {inc m : CatalogEntity}
    (hf : findById l inc.id = some m) :
    findById (upsertEntity l inc) inc.id = some (mergeEntity m inc) := by
  unfold upsertEntity
  rw [if_pos (by rw [hf]; rfl), findById_map_merge, hf]
  have hmid : m.id = inc.id := by simpa using List.find?_some hf
  simp [hmid]

theorem findById_upsert_notfound {l : List CatalogEntity} {inc : CatalogEntity}
    (hf : findById l inc.id = none) :
    upsertEntity l inc = l ++ [inc] ∧
      findById (upsertEntity l inc) inc.id = some inc := by
  have heq : upsertEntity l inc = l ++ [inc] := by
    unfold upsertEntity
    rw [if_neg (by rw [hf]; simp)]
  refine ⟨heq, ?_⟩
  rw [heq]
  unfold findById
  rw [List.find?_append]
  unfold findById at hf
  rw [hf]
  simp [List.find?]

theorem idsNodup_upsert {l : List CatalogEntity} (inc : CatalogEntity)
    (hn : idsNodup l) : idsNodup (upsertEntity l inc) := by
  unfold upsertEntity
  by_cases hf : (findById l inc.id).isSome
  · rw [if_pos hf]
    unfold idsNodup
    rw [List.map_map]
    have : (CatalogEntity.id ∘ fun e => if e.id == inc.id then mergeEntity e inc else e)
        = CatalogEntity.id := by
      funext e
      by_cases h : e.id = inc.id <;> simp [h, mergeEntity_id]
    rw [this]
    exact hn
  · rw [if_neg hf]
    unfold idsNodup
    rw [List.map_append, List.nodup_append]
    rw [Option.not_isSome_iff_eq_none, findById_eq_none] at hf
    refine ⟨hn, by simp, ?_⟩
    intro x hx hx2
    obtain ⟨e, he, rfl⟩ := List.mem_map.1 hx
    simp only [List.map_cons, List.map_nil, List.mem_singleton] at hx2
    exact hf e he hx2

theorem mem_upsert_of_ne {l : List CatalogEntity} {e : CatalogEntity}
    (inc : CatalogEntity) (he : e ∈ l) (hne : e.id ≠ inc.id) :
    e ∈ upsertEntity l inc := by
  unfold upsertEntity
  by_cases hf : (findById l inc.id).isSome
  · rw [if_pos hf]
    have : e = (fun x => if x.id == inc.id then mergeEntity x inc else x) e := by
      simp [hne]
    rw [this]
    exact List.mem_map_of_mem _ he
  · rw [if_neg hf]
    exact List.mem_append_left _ he

theorem idsNodup_mergeCategory (existing incoming : List CatalogEntity)
    (hn : idsNodup existing) : idsNodup (mergeCategory existing incoming) := by
  induction incoming generalizing existing with
  | nil => exact hn
  | cons i rest ih => exact ih _ (idsNodup_upsert i hn)

theorem findById_mergeCategory_notmem (existing incoming : List CatalogEntity)
    (k : String) (hk : ∀ i ∈ incoming, i.id ≠ k) :
    findById (mergeCategory existing incoming) k = findById existing k := by
  induction incoming generalizing existing with
  | nil => rfl
  | cons i rest ih =>
      show findById (mergeCategory (upsertEntity existing i) rest) k = _
      rw [ih _ fun j hj => hk j (List.mem_cons_of_mem i hj),
        findById_upsert_ne _ _ _ (hk i (List.mem_cons_self i rest))]

/-- The central per-category merge characterization: when both sides are
duplicate-free by id and an id occurs on both sides, the merged
collection's entity at that id is exactly `mergeEntity e i`. -/
theorem findById_mergeCategory_both {existing incoming : List CatalogEntity}
    {e i : CatalogEntity} (hne : idsNodup existing)
    (hni : idsNodup incoming) (he : e ∈ existing) (hi : i ∈ incoming)
    (hid : e.id = i.id) :
    findById (mergeCategory existing incoming) e.id = some (mergeEntity e i) := by
  induction incoming generalizing existing with
  | nil => cases hi
  | cons i0 rest ih =>
      show findById (mergeCategory (upsertEntity existing i0) rest) e.id = _
      rcases List.mem_cons.1 hi with hcase | hi'
      · subst hcase
        have hfound : findById existing i.id = some e := by
          rw [← hid]
          exact findById_eq_some_of_mem hne he
        have h1 : findById (upsertEntity existing i) i.id = some (mergeEntity e i) :=
          findById_upsert_found hfound
        have hrest : ∀ j ∈ rest, j.id ≠ e.id := by
          intro j hj hcon
          unfold idsNodup at hni
          rw [List.map_cons, List.nodup_cons] at hni
          apply hni.1
          have hjm : j.id ∈ List.map CatalogEntity.id rest := List.mem_map_of_mem _ hj
          rwa [hcon, hid] at hjm
        rw [findById_mergeCategory_notmem _ _ _ hrest, hid]
        exact h1
      · have hne0 : e.id ≠ i0.id := by
          intro hcon
          unfold idsNodup at hni
          rw [List.map_cons, List.nodup_cons] at hni
          apply hni.1
          have him : i.id ∈ List.map CatalogEntity.id rest := List.mem_map_of_mem _ hi'
          rwa [← hid, hcon] at him
        have hnirest : idsNodup rest := by
          unfold idsNodup at hni ⊢
          rw [List.map_cons, List.nodup_cons] at hni
          exact hni.2
        exact ih (idsNodup_upsert i0 hne) hnirest (mem_upsert_of_ne i0 he hne0) hi'

theorem covers_refl (i : CatalogEntity) : Covers i i :=
  ⟨fun _ h => h, fun _ h => h, fun h => h⟩

theorem covers_mergeEntity_self (m i : CatalogEntity) :
    Covers (mergeEntity m i) i := by
  refine ⟨subset_unionDedup _ _, subset_unionDedup _ _, ?_⟩
  intro h
  unfold mergeEntity at h
  simp only at h
  cases hm : m.classRestriction with
  | some c => rw [hm] at h; exact absurd h (by simp)
  | none => rw [hm] at h; exact h

theorem covers_mergeEntity_left {m i : CatalogEntity} (j : CatalogEntity)
    (h : Covers m i) : Covers (mergeEntity m j) i := by
  obtain ⟨ht, hn, hc⟩ := h
  refine ⟨fun t htt => base_subset_unionDedup _ _ t (ht t htt),
    fun t htt => base_subset_unionDedup _ _ t (hn t htt), ?_⟩
  intro hnone
  unfold mergeEntity at hnone
  simp only at hnone
  cases hm : m.classRestriction with
  | some c => rw [hm] at hnone; exact absurd hnone (by simp)
  | none => exact hc hm

theorem mergeEntity_eq_self {m i : CatalogEntity} (h : Covers m i) :
    mergeEntity m i = m := by
  obtain ⟨ht, hn, hc⟩ := h
  have hcls : (match m.classRestriction with
      | some c => some c
      | none => i.classRestriction) = m.classRestriction := by
    cases hm : m.classRestriction with
    | some c => rfl
    | none => exact hc hm
  unfold mergeEntity
  rw [unionDedup_eq_self m.tags i.tags ht, unionDedup_eq_self m.notes i.notes hn, hcls]

theorem covers_findById_upsert {l : List CatalogEntity} {k : String}
    {m i : CatalogEntity} (j : CatalogEntity)
    (hf : findById l k = some m) (hcov : Covers m i) :
    ∃ m', findById (upsertEntity l j) k = some m' ∧ Covers m' i := by
  by_cases hjk : j.id = k
  · subst hjk
    exact ⟨mergeEntity m j, findById_upsert_found hf, covers_mergeEntity_left j hcov⟩
  · exact ⟨m, by rw [findById_upsert_ne _ _ _ hjk]; exact hf, hcov⟩

theorem covers_findById_mergeCategory {l : List CatalogEntity}
    (rest : List CatalogEntity) {k : String} {m i : CatalogEntity}
    (hf : findById l k = some m) (hcov : Covers m i) :
    ∃ m', findById (mergeCategory l rest) k = some m' ∧ Covers m' i := by
  induction rest generalizing l m with
  | nil => exact ⟨m, hf, hcov⟩
  | cons j rest ih =>
      obtain ⟨m', hm', hcov'⟩ := covers_findById_upsert j hf hcov
      exact ih hm' hcov'

/-- Every incoming entity's content is covered by the merged
collection's entity at its id. -/
theorem mergeCategory_covers (existing incoming : List CatalogEntity) :
    ∀ i ∈ incoming,
      ∃ m, findById (mergeCategory existing incoming) i.id = some m ∧ Covers m i := by
  induction incoming generalizing existing with
  | nil => intro i hi; cases hi
  | cons i0 rest ih =>
      intro i hi
      rcases List.mem_cons.1 hi with hcase | hi'
      · subst hcase
        cases hx : findById existing i.id with
        | some m =>
            exact covers_findById_mergeCategory rest (findById_upsert_found hx)
              (covers_mergeEntity_self m i)
        | none =>
            obtain ⟨_, h1⟩ := findById_upsert_notfound hx
            exact covers_findById_mergeCategory rest h1 (covers_refl i)
      · exact ih (upsertEntity existing i0) i hi'

/-- Re-merging incoming entities that are all already covered leaves the
collection unchanged. -/
theorem mergeCategory_eq_self {existing incoming : List CatalogEntity}
    (hn : idsNodup existing)
    (h : ∀ i ∈ incoming, ∃ m, findById existing i.id = some m ∧ mergeEntity m i = m) :
    mergeCategory existing incoming = existing := by
  induction incoming with
  | nil => rfl
  | cons i0 rest ih =>
      obtain ⟨m, hm, hme⟩ := h i0 (List.mem_cons_self i0 rest)
      have hup : upsertEntity existing i0 = existing := by
        unfold upsertEntity
        rw [if_pos (by rw [hm]; rfl)]
        have hfix : ∀ e ∈ existing, (if e.id == i0.id then mergeEntity e i0 else e) = e := by
          intro e he
          by_cases hid : e.id = i0.id
          · have hmm : m.id = i0.id := by simpa using List.find?_some hm
            have hmem : m ∈ existing := List.mem_of_find?_eq_some hm
            have hem : e = m := eq_of_mem_of_idsNodup hn he hmem (by rw [hid, hmm])
            subst hem
            simp [hid, hme]
          · simp [hid]
        calc existing.map _ = existing.map id := List.map_congr_left hfix
          _ = existing := List.map_id existing
      show mergeCategory (upsertEntity existing i0) rest = existing
      rw [hup]
      exact ih fun i hi => h i (List.mem_cons_of_mem i0 hi)

/-- Merging the same incoming entities a second time is the identity on
the collection. -/
theorem mergeCategory_idem (existing incoming : List CatalogEntity)
    (hn : idsNodup existing) :
    mergeCategory (mergeCategory existing incoming) incoming
      = mergeCategory existing incoming := by
  apply mergeCategory_eq_self (idsNodup_mergeCategory _ _ hn)
  intro i hi
  obtain ⟨m, hm, hcov⟩ := mergeCategory_covers existing incoming i hi
  exact ⟨m, hm, mergeEntity_eq_self hcov⟩

theorem overlayOK_mergeCategory (old inc : List CatalogEntity)
    (hno : idsNodup old) (hni : idsNodup inc) :
    overlayOK old inc (mergeCategory old inc) := by
  intro e he i hi hid
  have hfind := findById_mergeCategory_both hno hni he hi hid
  refine ⟨mergeEntity e i, List.mem_of_find?_eq_some hfind, mergeEntity_id e i, rfl,
    fun t => ?_, fun t => ?_⟩
  · exact mem_unionDedup e.tags i.tags t
  · exact mem_unionDedup e.notes i.notes t

/-- Successful merges are exactly the runs where the version parses and
the delta normalizes, and the output catalog is the reconciled one. -/
theorem merge_ok_elim {cat : Catalog} {raw : RawDelta}
    {desc : ProvenanceDescriptor} {cat' : Catalog}
    (h : merge cat raw desc = .ok cat') :
    ∃ ma mi pa d, parseVersion cat.version = some (ma, mi, pa) ∧
      normalize raw = .ok d ∧ cat' = reconcile cat d desc ma mi pa := by
  unfold merge at h
  cases hv : parseVersion cat.version with
  | none => rw [hv] at h; cases h
  | some v =>
      obtain ⟨ma, mi, pa⟩ := v
      rw [hv] at h
      cases hn : normalize raw with
      | error e => rw [hn] at h; cases h
      | ok d =>
          rw [hn] at h
          cases h
          exact ⟨ma, mi, pa, d, rfl, rfl, rfl⟩

/-! ## Claim theorems for the merge engine -/

/-- C1: whenever `merge` fails (with a `ValidationError` or a
`MergeError`), the caller keeps the original catalog completely
unchanged — version, `updatedAt`, every entity collection, the meta
facts and the provenance are those of the pre-merge catalog (merges are
atomic, fail-closed). -/
theorem merge_error_atomic (cat : Catalog) (raw : RawDelta)
    (desc : ProvenanceDescriptor) (err : EngineError)
    (h : (mergeOrKeep cat raw desc).2 = some err) :
    (mergeOrKeep cat raw desc).1.version = cat.version ∧
    (mergeOrKeep cat raw desc).1.updatedAt = cat.updatedAt ∧
    (mergeOrKeep cat raw desc).1.weapons = cat.weapons ∧
    (mergeOrKeep cat raw desc).1.gadgets = cat.gadgets ∧
    (mergeOrKeep cat raw desc).1.specializations = cat.specializations ∧
    (mergeOrKeep cat raw desc).1.meta = cat.meta ∧
    (mergeOrKeep cat raw desc).1.provenance = cat.provenance := by
  unfold mergeOrKeep at h ⊢
  cases hm : merge cat raw desc with
  | ok c =>
      rw [hm] at h
      have h' : (none : Option EngineError) = some err := h
      cases h'
  | error e => exact ⟨rfl, rfl, rfl, rfl, rfl, rfl, rfl⟩

/-- C2: every successful merge bumps exactly the patch component of the
version: major and minor are carried over unchanged and patch increases
by one. -/
theorem merge_version_bump (cat : Catalog) (raw : RawDelta)
    (desc : ProvenanceDescriptor) (cat' : Catalog)
    (h : merge cat raw desc = .ok cat') :
    ∃ ma mi pa, parseVersion cat.version = some (ma, mi, pa) ∧
      parseVersion cat'.version = some (ma, mi, pa + 1) := by
  obtain ⟨ma, mi, pa, d, hv, hn, rfl⟩ := merge_ok_elim h
  exact ⟨ma, mi, pa, hv, parseVersion_formatVersion ma mi (pa + 1)⟩

/-- C3: every successful merge appends exactly one provenance entry at
the end; every pre-existing entry is unaltered and in its original
position. -/
theorem merge_provenance_append (cat : Catalog) (raw : RawDelta)
    (desc : ProvenanceDescriptor) (cat' : Catalog)
    (h : merge cat raw desc = .ok cat') :
    ∃ entry, cat'.provenance = cat.provenance ++ [entry] := by
  obtain ⟨ma, mi, pa, d, hv, hn, rfl⟩ := merge_ok_elim h
  exact ⟨provEntryOf cat d desc, rfl⟩

/-- C4: the Delta Normalizer fails exactly when some entity is missing
its id or some note exceeds the maximum length of 240 characters, and
the failure is always a `ValidationError` (the whole delta is rejected,
nothing is accepted); on success every entity's tags and notes, and the
meta fact sets, are duplicate-free (and all four collections are
present, which is intrinsic to the output type `Delta`). -/
theorem normalize_spec (raw : RawDelta) :
    ((∃ err, normalize raw = .error err) ↔
      (∃ e ∈ rawEntities raw, e.id = none) ∨
        (∃ e ∈ rawEntities raw, ∃ n ∈ e.notes, maxNoteLength < n.length)) ∧
    (∀ err, normalize raw = .error err → ∃ msg, err = .validationError msg) ∧
    (∀ d, normalize raw = .ok d →
      (∀ c ∈ d.weapons ++ d.gadgets ++ d.specializations,
          c.tags.Nodup ∧ c.notes.Nodup) ∧
        d.meta.synergy.Nodup ∧ d.meta.counters.Nodup) := by
  refine ⟨?_, fun err h => normalize_error_validation h,
    fun d h => normalize_ok_nodup h⟩
  rw [normalize_error_iff]
  unfold badEntity
  constructor
  · rintro ⟨e, he, hbad | hbad⟩
    · exact Or.inl ⟨e, he, hbad⟩
    · exact Or.inr ⟨e, he, hbad⟩
  · rintro (⟨e, he, h1⟩ | ⟨e, he, h1⟩)
    · exact ⟨e, he, Or.inl h1⟩
    · exact ⟨e, he, Or.inr h1⟩

/-- C5: for every id present in both the catalog and the (normalized)
delta, the merged entity keeps the existing scalar field whenever it is
present (the incoming scalar is taken only when the existing one is
absent) and its tags and notes are exactly the set unions of existing
and incoming, in all three categories.  Collections are assumed
duplicate-free by id, the spec's standing invariant. -/
theorem merge_overlay (cat : Catalog) (raw : RawDelta)
    (desc : ProvenanceDescriptor) (cat' : Catalog) (d : Delta)
    (hok : merge cat raw desc = .ok cat') (hd : normalize raw = .ok d)
    (hw : idsNodup cat.weapons) (hg : idsNodup cat.gadgets)
    (hs : idsNodup cat.specializations)
    (hdw : idsNodup d.weapons) (hdg : idsNodup d.gadgets)
    (hds : idsNodup d.specializations) :
    overlayOK cat.weapons d.weapons cat'.weapons ∧
    overlayOK cat.gadgets d.gadgets cat'.gadgets ∧
    overlayOK cat.specializations d.specializations cat'.specializations := by
  obtain ⟨ma, mi, pa, d0, hv, hn, rfl⟩ := merge_ok_elim hok
  rw [hd] at hn
  cases hn
  exact ⟨overlayOK_mergeCategory _ _ hw hdw, overlayOK_mergeCategory _ _ hg hdg,
    overlayOK_mergeCategory _ _ hs hds⟩

/-- C6: re-merging the identical delta (same raw delta, same
provenance descriptor) succeeds and is content-idempotent: the entity
collections and meta facts are unchanged from the first merge (hence
identical entity counts and identical tag and note sets for every
entity), while the version patch component and the provenance length
each advance once more. -/
theorem merge_idempotent (cat : Catalog) (raw : RawDelta)
    (desc : ProvenanceDescriptor) (cat1 : Catalog)
    (h1 : merge cat raw desc = .ok cat1)
    (hw : idsNodup cat.weapons) (hg : idsNodup cat.gadgets)
    (hs : idsNodup cat.specializations) :
    ∃ cat2, merge cat1 raw desc = .ok cat2 ∧
      cat2.weapons = cat1.weapons ∧ cat2.gadgets = cat1.gadgets ∧
      cat2.specializations = cat1.specializations ∧ cat2.meta = cat1.meta ∧
      cat2.updatedAt = cat1.updatedAt ∧
      cat2.provenance.length = cat1.provenance.length + 1 ∧
      (∃ ma mi pa, parseVersion cat1.version = some (ma, mi, pa) ∧
        parseVersion cat2.version = some (ma, mi, pa + 1)) := by
  obtain ⟨ma, mi, pa, d, hv, hn, rfl⟩ := merge_ok_elim h1
  have hv1 : parseVersion (reconcile cat d desc ma mi pa).version = some (ma, mi, pa + 1) :=
    parseVersion_formatVersion ma mi (pa + 1)
  have h2 : merge (reconcile cat d desc ma mi pa) raw desc
      = .ok (reconcile (reconcile cat d desc ma mi pa) d desc ma mi (pa + 1)) := by
    unfold merge
    rw [hv1, hn]
  refine ⟨_, h2, ?_, ?_, ?_, ?_, rfl, ?_, ?_⟩
  · exact mergeCategory_idem cat.weapons d.weapons hw
  · exact mergeCategory_idem cat.gadgets d.gadgets hg
  · exact mergeCategory_idem cat.specializations d.specializations hs
  · show MetaFacts.mk (unionDedup (unionDedup cat.meta.synergy d.meta.synergy) d.meta.synergy)
        (unionDedup (unionDedup cat.meta.counters d.meta.counters) d.meta.counters)
      = MetaFacts.mk (unionDedup cat.meta.synergy d.meta.synergy)
        (unionDedup cat.meta.counters d.meta.counters)
    rw [unionDedup_eq_self _ _ (subset_unionDedup cat.meta.synergy d.meta.synergy),
      unionDedup_eq_self _ _ (subset_unionDedup cat.meta.counters d.meta.counters)]
  · show ((reconcile cat d desc ma mi pa).provenance
        ++ [provEntryOf (reconcile cat d desc ma mi pa) d desc]).length
      = (reconcile cat d desc ma mi pa).provenance.length + 1
    simp
  · exact ⟨ma, mi, pa + 1, hv1, parseVersion_formatVersion ma mi (pa + 2)⟩

/-- C7: when the current catalog's version string cannot be parsed as
three dot-separated integers, merging any delta fails with a
`MergeError` and the caller keeps the original catalog (in particular
no provenance entry is appended); the malformed version is never
repaired. -/
theorem merge_malformed_version (cat : Catalog) (raw : RawDelta)
    (desc : ProvenanceDescriptor) (h : parseVersion cat.version = none) :
    merge cat raw desc = .error (.mergeError "malformed catalog version") ∧
      mergeOrKeep cat raw desc = (cat, some (.mergeError "malformed catalog version")) := by
  have hm : merge cat raw desc = .error (.mergeError "malformed catalog version") := by
    unfold merge
    rw [h]
  refine ⟨hm, ?_⟩
  unfold mergeOrKeep
  rw [hm]

/-! ## UTF-8 round trip -/

theorem char_toNat_valid (c : Char) :
    c.toNat < 0xD800 ∨ (0xE000 ≤ c.toNat ∧ c.toNat < 0x110000) := by
  have h := c.valid
  unfold UInt32.isValidChar Nat.isValidChar at h
  rcases h with h | ⟨h1, h2⟩
  · exact Or.inl h
  · refine Or.inr ⟨?_, h2⟩
    show 0xE000 ≤ c.val.toNat
    omega

theorem isCont_true {b : Nat} (h1 : 0x80 ≤ b) (h2 : b < 0xC0) : isCont b = true := by
  simp only [isCont, Bool.and_eq_true, decide_eq_true_eq]
  omega

theorem utf8EncodeChar_lt (c : Char) : ∀ b ∈ utf8EncodeChar c, b < 256 := by
  have hval := char_toNat_valid c
  unfold utf8EncodeChar
  intro b hb
  by_cases h1 : c.toNat < 0x80
  · rw [if_pos h1] at hb
    simp only [List.mem_singleton] at hb
    omega
  · rw [if_neg h1] at hb
    by_cases h2 : c.toNat < 0x800
    · rw [if_pos h2] at hb
      simp only [List.mem_cons, List.not_mem_nil, or_false] at hb
      rcases hb with rfl | rfl <;> omega
    · rw [if_neg h2] at hb
      by_cases h3 : c.toNat < 0x10000
      · rw [if_pos h3] at hb
        simp only [List.mem_cons, List.not_mem_nil, or_false] at hb
        rcases hb with rfl | rfl | rfl <;> omega
      · rw [if_neg h3] at hb
        simp only [List.mem_cons, List.not_mem_nil, or_false] at hb
        rcases hb with rfl | rfl | rfl | rfl <;> omega

theorem utf8Encode_lt (cs : List Char) : ∀ b ∈ utf8Encode cs, b < 256 := by
  intro b hb
  unfold utf8Encode at hb
  rw [List.mem_flatten] at hb
  obtain ⟨l, hl, hbl⟩ := hb
  rw [List.mem_map] at hl
  obtain ⟨c, _, rfl⟩ := hl
  exact utf8EncodeChar_lt c b hbl

set_option maxRecDepth 4096 in
theorem decodeOne_length {b : Nat} {bs : List Nat} {n : Nat} {rest : List Nat}
    (h : decodeOne b bs = some (n, rest)) : rest.length ≤ bs.length := by
  unfold decodeOne at h
  repeat' split at h
  all_goals (try cases h)
  all_goals (try simp only [List.length_cons])
  all_goals omega

theorem utf8DecodeAux_fuel :
    ∀ fuel fuel' (bs : List Nat), bs.length ≤ fuel → bs.length ≤ fuel' →
      utf8DecodeAux fuel bs = utf8DecodeAux fuel' bs := by
  intro fuel
  induction fuel with
  | zero =>
      intro fuel' bs h h'
      have : bs = [] := List.length_eq_zero.1 (by omega)
      subst this
      cases fuel' <;> rfl
  | succ fuel ih =>
      intro fuel' bs h h'
      cases bs with
      | nil => cases fuel' <;> rfl
      | cons b bs =>
          cases fuel' with
          | zero => simp at h'
          | succ fuel' =>
              show (match decodeOne b bs with
                | some (n, rest) =>
                    match utf8DecodeAux fuel rest with
                    | some t => some (Char.ofNat n :: t)
                    | none => none
                | none => none) =
                (match decodeOne b bs with
                | some (n, rest) =>
                    match utf8DecodeAux fuel' rest with
                    | some t => some (Char.ofNat n :: t)
                    | none => none
                | none => none)
              cases hdec : decodeOne b bs with
              | none => rfl
              | some p =>
                  obtain ⟨n, rest⟩ := p
                  have hl := decodeOne_length hdec
                  simp only [List.length_cons] at h h'
                  show (match utf8DecodeAux fuel rest with
                    | some t => some (Char.ofNat n :: t)
                    | none => none) =
                    (match utf8DecodeAux fuel' rest with
                    | some t => some (Char.ofNat n :: t)
                    | none => none)
                  rw [ih fuel' rest (by omega) (by omega)]

theorem decodeOne_encodeChar (c : Char) (rest : List Nat) :
    ∃ b bs, utf8EncodeChar c ++ rest = b :: bs ∧
      decodeOne b bs = some (c.toNat, rest) := by
  have hval := char_toNat_valid c
  unfold utf8EncodeChar
  by_cases h1 : c.toNat < 0x80
  · rw [if_pos h1]
    refine ⟨c.toNat, rest, rfl, ?_⟩
    unfold decodeOne
    rw [if_pos h1]
  · rw [if_neg h1]
    by_cases h2 : c.toNat < 0x800
    · rw [if_pos h2]
      refine ⟨_, _, rfl, ?_⟩
      unfold decodeOne
      rw [if_neg (by omega), if_neg (by omega), if_pos (by omega)]
      show (if isCont (0x80 + c.toNat % 64) = true then
          if (0xC0 + c.toNat / 64 - 0xC0) * 64 + (0x80 + c.toNat % 64 - 0x80) < 0x80 then none
          else some ((0xC0 + c.toNat / 64 - 0xC0) * 64 + (0x80 + c.toNat % 64 - 0x80), rest)
        else none) = some (c.toNat, rest)
      rw [if_pos (isCont_true (by omega) (by omega)), if_neg (by omega),
        show (0xC0 + c.toNat / 64 - 0xC0) * 64 + (0x80 + c.toNat % 64 - 0x80) = c.toNat
          from by omega]
    · rw [if_neg h2]
      by_cases h3 : c.toNat < 0x10000
      · rw [if_pos h3]
        refine ⟨_, _, rfl, ?_⟩
        unfold decodeOne
        rw [if_neg (by omega), if_neg (by omega), if_neg (by omega), if_pos (by omega)]
        show (if (isCont (0x80 + c.toNat / 64 % 64) && isCont (0x80 + c.toNat % 64)) = true then
            if (0xE0 + c.toNat / 4096 - 0xE0) * 4096 + (0x80 + c.toNat / 64 % 64 - 0x80) * 64
                + (0x80 + c.toNat % 64 - 0x80) < 0x800 ∨
                (0xD800 ≤ (0xE0 + c.toNat / 4096 - 0xE0) * 4096
                    + (0x80 + c.toNat / 64 % 64 - 0x80) * 64 + (0x80 + c.toNat % 64 - 0x80) ∧
                  (0xE0 + c.toNat / 4096 - 0xE0) * 4096 + (0x80 + c.toNat / 64 % 64 - 0x80) * 64
                    + (0x80 + c.toNat % 64 - 0x80) < 0xE000) then none
            else some ((0xE0 + c.toNat / 4096 - 0xE0) * 4096
                + (0x80 + c.toNat / 64 % 64 - 0x80) * 64 + (0x80 + c.toNat % 64 - 0x80), rest)
          else none) = some (c.toNat, rest)
        rw [if_pos (by rw [isCont_true (by omega) (by omega),
            isCont_true (by omega) (by omega)]; rfl),
          if_neg (by omega),
          show (0xE0 + c.toNat / 4096 - 0xE0) * 4096 + (0x80 + c.toNat / 64 % 64 - 0x80) * 64
              + (0x80 + c.toNat % 64 - 0x80) = c.toNat from by omega]
      · rw [if_neg h3]
        refine ⟨_, _, rfl, ?_⟩
        unfold decodeOne
        rw [if_neg (by omega), if_neg (by omega), if_neg (by omega), if_neg (by omega),
          if_pos (by omega)]
        show (if (isCont (0x80 + c.toNat / 4096 % 64) && isCont (0x80 + c.toNat / 64 % 64)
              && isCont (0x80 + c.toNat % 64)) = true then
            if (0xF0 + c.toNat / 262144 - 0xF0) * 262144 + (0x80 + c.toNat / 4096 % 64 - 0x80) * 4096
                + (0x80 + c.toNat / 64 % 64 - 0x80) * 64 + (0x80 + c.toNat % 64 - 0x80) < 0x10000 ∨
                0x110000 ≤ (0xF0 + c.toNat / 262144 - 0xF0) * 262144
                  + (0x80 + c.toNat / 4096 % 64 - 0x80) * 4096
                  + (0x80 + c.toNat / 64 % 64 - 0x80) * 64 + (0x80 + c.toNat % 64 - 0x80) then none
            else some ((0xF0 + c.toNat / 262144 - 0xF0) * 262144
                + (0x80 + c.toNat / 4096 % 64 - 0x80) * 4096
                + (0x80 + c.toNat / 64 % 64 - 0x80) * 64 + (0x80 + c.toNat % 64 - 0x80), rest)
          else none) = some (c.toNat, rest)
        rw [if_pos (by rw [isCont_true (by omega) (by omega),
            isCont_true (by omega) (by omega), isCont_true (by omega) (by omega)]; rfl),
          if_neg (by omega),
          show (0xF0 + c.toNat / 262144 - 0xF0) * 262144
              + (0x80 + c.toNat / 4096 % 64 - 0x80) * 4096
              + (0x80 + c.toNat / 64 % 64 - 0x80) * 64 + (0x80 + c.toNat % 64 - 0x80) = c.toNat
            from by omega]

theorem utf8DecodeAux_encode (cs : List Char) :
    ∀ fuel, (utf8Encode cs).length ≤ fuel →
      utf8DecodeAux fuel (utf8Encode cs) = some cs := by
  induction cs with
  | nil => intro fuel h; cases fuel <;> rfl
  | cons c cs ih =>
      intro fuel h
      obtain ⟨b, bs, heq, hdec⟩ := decodeOne_encodeChar c (utf8Encode cs)
      have hjoin : utf8Encode (c :: cs) = utf8EncodeChar c ++ utf8Encode cs := rfl
      rw [hjoin, heq] at h ⊢
      cases fuel with
      | zero => simp at h
      | succ fuel =>
          show (match decodeOne b bs with
            | some (n, rest) =>
                match utf8DecodeAux fuel rest with
                | some t => some (Char.ofNat n :: t)
                | none => none
            | none => none) = some (c :: cs)
          rw [hdec]
          have hrest : (utf8Encode cs).length ≤ fuel := by
            have hl := decodeOne_length hdec
            simp only [List.length_cons] at h
            omega
          show (match utf8DecodeAux fuel (utf8Encode cs) with
            | some t => some (Char.ofNat c.toNat :: t)
            | none => none) = some (c :: cs)
          rw [ih fuel hrest, Char.ofNat_toNat]

theorem utf8_roundtrip (cs : List Char) : utf8Decode (utf8Encode cs) = some cs :=
  utf8DecodeAux_encode cs (utf8Encode cs).length le_rfl

/-! ## Base64 round trip -/

theorem b64Index_b64Char : ∀ n, n < 64 → b64Index (b64Char n) = some n := by decide

theorem urlUnsafe_urlSafe_b64Char :
    ∀ n, n < 64 → urlUnsafe (urlSafe (b64Char n)) = b64Char n := by decide

theorem b64Char_not_ws : ∀ n, n < 64 → isB64Ws (b64Char n) = false := by decide

theorem urlSafe_b64Char_not_eq : ∀ n, n < 64 → ¬urlSafe (b64Char n) = '=' := by decide

theorem btoa_eq :
    ∀ bs : List Nat,
      btoa bs = (toSextets bs).map b64Char ++ List.replicate (padCount bs) '='
  | [] => rfl
  | [_] => rfl
  | [_, _] => rfl
  | b1 :: b2 :: b3 :: rest => by
      have hpad : padCount (b1 :: b2 :: b3 :: rest) = padCount rest := by
        unfold padCount
        simp only [List.length_cons,
          show (rest.length + 1 + 1 + 1) % 3 = rest.length % 3 from by omega]
      show b64Char (b1 / 4) :: b64Char (b1 % 4 * 16 + b2 / 16) ::
          b64Char (b2 % 16 * 4 + b3 / 64) :: b64Char (b3 % 64) :: btoa rest = _
      rw [btoa_eq rest, hpad]
      rfl

theorem toSextets_lt :
    ∀ bs : List Nat, (∀ b ∈ bs, b < 256) → ∀ s ∈ toSextets bs, s < 64
  | [], _ => by intro s hs; cases hs
  | [b1], h => by
      intro s hs
      have hb1 : b1 < 256 := h b1 (by simp)
      simp only [toSextets, List.mem_cons, List.not_mem_nil, or_false] at hs
      rcases hs with rfl | rfl <;> omega
  | [b1, b2], h => by
      intro s hs
      have hb1 : b1 < 256 := h b1 (by simp)
      have hb2 : b2 < 256 := h b2 (by simp)
      simp only [toSextets, List.mem_cons, List.not_mem_nil, or_false] at hs
      rcases hs with rfl | rfl | rfl <;> omega
  | b1 :: b2 :: b3 :: rest, h => by
      intro s hs
      have hb1 : b1 < 256 := h b1 (by simp)
      have hb2 : b2 < 256 := h b2 (by simp)
      have hb3 : b3 < 256 := h b3 (by simp)
      simp only [toSextets, List.mem_cons] at hs
      rcases hs with rfl | rfl | rfl | rfl | hs
      · omega
      · omega
      · omega
      · omega
      · exact toSextets_lt rest (fun b hb => h b (by simp [hb])) s hs

theorem toSextets_len_pad :
    ∀ bs : List Nat,
      ((toSextets bs).length + padCount bs) % 4 = 0 ∧ padCount bs ≤ 2 ∧
        (bs = [] → padCount bs = 0)
  | [] => by
      refine ⟨by decide, by decide, fun _ => rfl⟩
  | [b1] => by
      refine ⟨?_, ?_, by simp⟩
      · show (((b1 / 4 :: [b1 % 4 * 16]).length) + padCount [b1]) % 4 = 0
        simp [padCount]
      · show padCount [b1] ≤ 2
        simp [padCount]
  | [b1, b2] => by
      refine ⟨?_, ?_, by simp⟩
      · show (((b1 / 4 :: (b1 % 4 * 16 + b2 / 16) :: [b2 % 16 * 4]).length)
          + padCount [b1, b2]) % 4 = 0
        simp [padCount]
      · show padCount [b1, b2] ≤ 2
        simp [padCount]
  | b1 :: b2 :: b3 :: rest => by
      obtain ⟨h1, h2, _⟩ := toSextets_len_pad rest
      have hpad : padCount (b1 :: b2 :: b3 :: rest) = padCount rest := by
        unfold padCount
        simp only [List.length_cons,
          show (rest.length + 1 + 1 + 1) % 3 = rest.length % 3 from by omega]
      refine ⟨?_, by rw [hpad]; exact h2, by simp⟩
      show ((b1 / 4 :: (b1 % 4 * 16 + b2 / 16) :: (b2 % 16 * 4 + b3 / 64) :: b3 % 64 ::
        toSextets rest).length + padCount (b1 :: b2 :: b3 :: rest)) % 4 = 0
      rw [hpad]
      simp only [List.length_cons]
      omega

theorem charsToSextets_map (sx : List Nat) (h : ∀ s ∈ sx, s < 64) :
    charsToSextets (sx.map b64Char) = some sx := by
  induction sx with
  | nil => rfl
  | cons s sx ih =>
      show (match b64Index (b64Char s) with
        | some i =>
            match charsToSextets (sx.map b64Char) with
            | some t => some (i :: t)
            | none => none
        | none => none) = some (s :: sx)
      rw [b64Index_b64Char s (h s (by simp)),
        ih fun x hx => h x (by simp [hx])]

theorem sextetsToBytes_toSextets :
    ∀ bs : List Nat, (∀ b ∈ bs, b < 256) → sextetsToBytes (toSextets bs) = some bs
  | [], _ => rfl
  | [b1], h => by
      have hb1 : b1 < 256 := h b1 (by simp)
      show some [b1 / 4 * 4 + b1 % 4 * 16 / 16] = some [b1]
      rw [show b1 / 4 * 4 + b1 % 4 * 16 / 16 = b1 from by omega]
  | [b1, b2], h => by
      have hb1 : b1 < 256 := h b1 (by simp)
      have hb2 : b2 < 256 := h b2 (by simp)
      show some [b1 / 4 * 4 + (b1 % 4 * 16 + b2 / 16) / 16,
        (b1 % 4 * 16 + b2 / 16) % 16 * 16 + b2 % 16 * 4 / 4] = some [b1, b2]
      rw [show b1 / 4 * 4 + (b1 % 4 * 16 + b2 / 16) / 16 = b1 from by omega,
        show (b1 % 4 * 16 + b2 / 16) % 16 * 16 + b2 % 16 * 4 / 4 = b2 from by omega]
  | b1 :: b2 :: b3 :: rest, h => by
      have hb1 : b1 < 256 := h b1 (by simp)
      have hb2 : b2 < 256 := h b2 (by simp)
      have hb3 : b3 < 256 := h b3 (by simp)
      show (match sextetsToBytes (toSextets rest) with
        | some t => some ((b1 / 4 * 4 + (b1 % 4 * 16 + b2 / 16) / 16) ::
            ((b1 % 4 * 16 + b2 / 16) % 16 * 16 + (b2 % 16 * 4 + b3 / 64) / 4) ::
            ((b2 % 16 * 4 + b3 / 64) % 4 * 64 + b3 % 64) :: t)
        | none => none) = some (b1 :: b2 :: b3 :: rest)
      rw [sextetsToBytes_toSextets rest fun b hb => h b (by simp [hb]),
        show b1 / 4 * 4 + (b1 % 4 * 16 + b2 / 16) / 16 = b1 from by omega,
        show (b1 % 4 * 16 + b2 / 16) % 16 * 16 + (b2 % 16 * 4 + b3 / 64) / 4 = b2 from by omega,
        show (b2 % 16 * 4 + b3 / 64) % 4 * 64 + b3 % 64 = b3 from by omega]

theorem toSextets_ne_nil {bs : List Nat} (h : bs ≠ []) : toSextets bs ≠ [] := by
  match bs with
  | [] => exact absurd rfl h
  | [b1] => simp [toSextets]
  | [b1, b2] => simp [toSextets]
  | b1 :: b2 :: b3 :: rest => simp [toSextets]

/-- When the input ends in `p ≤ 2` pad characters and the last real
character is not `=`, `stripPad` removes exactly the pad. -/
theorem stripPad_append_pad (A : List Char) (p : Nat) (hp : p ≤ 2)
    (hlen : (A.length + p) % 4 = 0) (hA : ∀ c ∈ A, ¬c = '=')
    (hnil : p ≠ 0 → A ≠ []) :
    stripPad (A ++ List.replicate p '=') = A := by
  unfold stripPad
  rw [if_pos (by
    simp only [List.length_append, List.length_replicate]
    omega)]
  rw [List.reverse_append, List.reverse_replicate]
  match p, hp with
  | 0, _ =>
      simp only [List.replicate, List.nil_append, List.append_nil]
      cases hrev : A.reverse with
      | nil => simp
      | cons c1 rest1 =>
          have hc1 : ¬c1 = '=' := hA c1 (by
            have hm : c1 ∈ A.reverse := by rw [hrev]; simp
            simpa using hm)
          have hne2 : ¬(c1 :: rest1).take 2 = ['=', '='] := by
            intro hcon
            apply hc1
            cases rest1 <;> simpa using congrArg List.head? hcon
          have hne1 : ¬(c1 :: rest1).take 1 = ['='] := by
            intro hcon
            apply hc1
            simpa using congrArg List.head? hcon
          rw [if_neg hne2, if_neg hne1]
  | 1, _ =>
      obtain ⟨c1, rest1, hrev⟩ : ∃ c1 rest1, A.reverse = c1 :: rest1 := by
        cases hrevA : A.reverse with
        | nil =>
            exact absurd (by simpa using congrArg List.reverse hrevA) (hnil (by omega))
        | cons c1 rest1 => exact ⟨c1, rest1, rfl⟩
      have hc1 : ¬c1 = '=' := hA c1 (by
        have hm : c1 ∈ A.reverse := by rw [hrev]; simp
        simpa using hm)
      rw [hrev]
      simp only [List.replicate, List.cons_append, List.nil_append]
      have hne2 : ¬('=' :: c1 :: rest1).take 2 = ['=', '='] := by
        intro hcon
        apply hc1
        simpa using congrArg (fun l => l.tail.head?) hcon
      have hpos1 : ('=' :: c1 :: rest1).take 1 = ['='] := by simp
      rw [if_neg hne2, if_pos hpos1]
      show (c1 :: rest1).reverse = A
      rw [← hrev, List.reverse_reverse]
  | 2, _ =>
      simp only [List.replicate, List.cons_append, List.nil_append]
      have hpos2 : ('=' :: '=' :: A.reverse).take 2 = ['=', '='] := by simp
      rw [if_pos hpos2]
      show A.reverse.reverse = A
      rw [List.reverse_reverse]

/-- `atob` inverts `btoa` in its padded, pre-url form. -/
theorem atob_btoa_padded (bs : List Nat) (h : ∀ b ∈ bs, b < 256) :
    atob ((toSextets bs).map b64Char ++ List.replicate (padCount bs) '=') = some bs := by
  obtain ⟨hlen4, hple, _⟩ := toSextets_len_pad bs
  have hslt := toSextets_lt bs h
  have hA_ne : ∀ c ∈ (toSextets bs).map b64Char, ¬c = '=' := by
    intro c hc
    obtain ⟨s, hs, rfl⟩ := List.mem_map.1 hc
    have hidx := b64Index_b64Char s (hslt s hs)
    intro hcon
    rw [hcon] at hidx
    cases hidx
  have hfil : ((toSextets bs).map b64Char ++ List.replicate (padCount bs) '=').filter
      (fun c => !isB64Ws c)
      = (toSextets bs).map b64Char ++ List.replicate (padCount bs) '=' := by
    rw [List.filter_eq_self]
    intro c hc
    rcases List.mem_append.1 hc with hc | hc
    · obtain ⟨s, hs, rfl⟩ := List.mem_map.1 hc
      rw [b64Char_not_ws s (hslt s hs)]
      rfl
    · rw [List.eq_of_mem_replicate hc]
      rfl
  have hstrip : stripPad ((toSextets bs).map b64Char ++ List.replicate (padCount bs) '=')
      = (toSextets bs).map b64Char := by
    apply stripPad_append_pad _ _ hple
    · simpa using hlen4
    · exact hA_ne
    · intro hp0
      have hbs : bs ≠ [] := by
        intro hcon
        subst hcon
        exact hp0 rfl
      simpa using toSextets_ne_nil hbs
  unfold atob
  rw [hfil, hstrip]
  rw [if_neg (by
    simp only [List.length_map]
    omega)]
  rw [charsToSextets_map _ hslt]
  exact sextetsToBytes_toSextets bs h

theorem dropWhile_replicate_append (n : Nat) (l : List Char) :
    (List.replicate n '=' ++ l).dropWhile (fun c => c == '=') =
      l.dropWhile (fun c => c == '=') := by
  induction n with
  | zero => rfl
  | succ n ih =>
      show (('=' :: (List.replicate n '=' ++ l)).dropWhile (fun c => c == '=')) = _
      rw [List.dropWhile_cons_of_pos (by rfl)]
      exact ih

theorem dropWhile_eq_self_ne (l : List Char) (h : ∀ c ∈ l, ¬c = '=') :
    l.dropWhile (fun c => c == '=') = l := by
  cases l with
  | nil => rfl
  | cons c cs =>
      exact List.dropWhile_cons_of_neg (by simpa using h c (by simp))

/-- The full base64-url round trip: `tokenBytes` recovers the bytes that
`encodeLoadout`'s base64-url stage encoded. -/
theorem tokenBytes_encode (bytes : List Nat) (h : ∀ b ∈ bytes, b < 256) :
    tokenBytes (String.mk (stripTrailingEq ((btoa bytes).map urlSafe))) = some bytes := by
  obtain ⟨hlen4, hple, _⟩ := toSextets_len_pad bytes
  have hslt := toSextets_lt bytes h
  have hB : (btoa bytes).map urlSafe
      = (toSextets bytes).map (urlSafe ∘ b64Char) ++ List.replicate (padCount bytes) '=' := by
    rw [btoa_eq, List.map_append, List.map_map, List.map_replicate]
    rfl
  have hBne : ∀ c ∈ (toSextets bytes).map (urlSafe ∘ b64Char), ¬c = '=' := by
    intro c hc
    obtain ⟨s, hs, rfl⟩ := List.mem_map.1 hc
    exact urlSafe_b64Char_not_eq s (hslt s hs)
  have hstrip : stripTrailingEq ((btoa bytes).map urlSafe)
      = (toSextets bytes).map (urlSafe ∘ b64Char) := by
    rw [hB]
    unfold stripTrailingEq
    rw [List.reverse_append, List.reverse_replicate, dropWhile_replicate_append,
      dropWhile_eq_self_ne _ (fun c hc => hBne c (by simpa using hc)),
      List.reverse_reverse]
  rw [hstrip]
  unfold tokenBytes padToken
  have hdata : (String.mk ((toSextets bytes).map (urlSafe ∘ b64Char))).data
      = (toSextets bytes).map (urlSafe ∘ b64Char) := rfl
  have hlenmk : (String.mk ((toSextets bytes).map (urlSafe ∘ b64Char))).data.length
      = (toSextets bytes).length := by
    rw [hdata]
    exact List.length_map _ _
  rw [hdata, hlenmk]
  have hdrop : List.drop (((toSextets bytes).length + 3) % 4) ['=', '=', '=']
      = List.replicate (padCount bytes) '=' := by
    rcases hpc : padCount bytes with _ | _ | _ | n
    · rw [hpc] at hlen4
      rw [show ((toSextets bytes).length + 3) % 4 = 3 from by omega]
      rfl
    · rw [hpc] at hlen4
      rw [show ((toSextets bytes).length + 3) % 4 = 2 from by omega]
      rfl
    · rw [hpc] at hlen4
      rw [show ((toSextets bytes).length + 3) % 4 = 1 from by omega]
      rfl
    · rw [hpc] at hple
      omega
  rw [hdrop, List.map_append, List.map_map, List.map_replicate,
    show urlUnsafe '=' = '=' from rfl,
    show (toSextets bytes).map (urlUnsafe ∘ (urlSafe ∘ b64Char))
        = (toSextets bytes).map b64Char from
      List.map_congr_left fun s hs => urlUnsafe_urlSafe_b64Char s (hslt s hs)]
  exact atob_btoa_padded bytes h

/-! ## JSON print/parse round trip on the payload -/

theorem stringMk_data : ∀ s : String, String.mk s.data = s
  | ⟨_⟩ => rfl

theorem printString_append (a X : List Char) :
    printString a ++ X = '"' :: (escapeString a ++ '"' :: X) := by
  simp [printString, List.cons_append, List.append_assoc]

theorem hexVal_hexDigitChar : ∀ d, d < 16 → hexVal (hexDigitChar d) = some d := by decide

theorem parseVal_quote (f : Nat) (T : List Char) :
    parseVal (f + 1) ('"' :: T) =
      (match parseStringBody T with
      | some (body, rest) => some (Json.str (String.mk body), rest)
      | none => none) := rfl

theorem parseVal_lbracket (f : Nat) (T : List Char) :
    parseVal (f + 1) ('[' :: T) =
      (match skipWs T with
      | r :: rest =>
          if r = ']' then some (Json.arr [], rest)
          else
            match parseElems f (r :: rest) with
            | some (xs, rest2) => some (Json.arr xs, rest2)
            | none => none
      | [] => none) := rfl

theorem parseVal_lbrace (f : Nat) (T : List Char) :
    parseVal (f + 1) (lbrace :: T) =
      (match skipWs T with
      | r :: rest =>
          if r = rbrace then some (Json.obj [], rest)
          else
            match parseMembers f (r :: rest) with
            | some (kvs, rest2) => some (Json.obj kvs, rest2)
            | none => none
      | [] => none) := rfl

theorem parseElems_succ (f : Nat) (L : List Char) :
    parseElems (f + 1) L =
      (match parseVal f L with
      | none => none
      | some (v, rest) =>
          match skipWs rest with
          | ',' :: rest2 =>
              match parseElems f rest2 with
              | some (xs, rest3) => some (v :: xs, rest3)
              | none => none
          | ']' :: rest2 => some ([v], rest2)
          | _ => none) := rfl

theorem parseMembers_step (f : Nat) (T : List Char) :
    parseMembers (f + 1) ('"' :: T) =
      (match parseStringBody T with
      | none => none
      | some (k, rest) =>
          match skipWs rest with
          | ':' :: rest1 =>
              match parseVal f rest1 with
              | none => none
              | some (v, rest2) =>
                  match skipWs rest2 with
                  | ',' :: rest3 =>
                      match parseMembers f rest3 with
                      | some (kvs, rest4) => some ((String.mk k, v) :: kvs, rest4)
                      | none => none
                  | r :: rest3 =>
                      if r = rbrace then some ([(String.mk k, v)], rest3)
                      else none
                  | [] => none
          | _ => none) := rfl

theorem escapeChar_length_pos (c : Char) : 1 ≤ (escapeChar c).length := by
  unfold escapeChar
  repeat' split
  all_goals simp

theorem parseStringBodyAux_escape :
    ∀ (cs : List Char) (rest : List Char) (fuel : Nat),
      (escapeString cs).length + 1 ≤ fuel →
      parseStringBodyAux fuel (escapeString cs ++ '"' :: rest) = some (cs, rest)
  | [], rest, fuel, h => by
      obtain ⟨f, rfl⟩ : ∃ f, fuel = f + 1 := ⟨fuel - 1, by omega⟩
      rfl
  | c :: cs, rest, fuel, h => by
      have hsplit : escapeString (c :: cs) = escapeChar c ++ escapeString cs := rfl
      have hlen : (escapeChar c).length + (escapeString cs).length + 1 ≤ fuel := by
        rw [hsplit, List.length_append] at h
        omega
      have hec1 := escapeChar_length_pos c
      obtain ⟨f, rfl⟩ : ∃ f, fuel = f + 1 := ⟨fuel - 1, by omega⟩
      have ih := parseStringBodyAux_escape cs rest f (by omega)
      show parseStringBodyAux (f + 1) ((escapeChar c ++ escapeString cs) ++ '"' :: rest)
          = some (c :: cs, rest)
      rw [List.append_assoc]
      unfold escapeChar
      by_cases h1 : c = '"'
      · rw [if_pos h1]
        show (match parseStringBodyAux f (escapeString cs ++ '"' :: rest) with
          | some (body, r) => some ('"' :: body, r)
          | none => none) = some (c :: cs, rest)
        rw [ih, h1]
      · rw [if_neg h1]
        by_cases h2 : c = '\\'
        · rw [if_pos h2]
          show (match parseStringBodyAux f (escapeString cs ++ '"' :: rest) with
            | some (body, r) => some ('\\' :: body, r)
            | none => none) = some (c :: cs, rest)
          rw [ih, h2]
        · rw [if_neg h2]
          by_cases h3 : c = '\n'
          · rw [if_pos h3]
            show (match parseStringBodyAux f (escapeString cs ++ '"' :: rest) with
              | some (body, r) => some ('\n' :: body, r)
              | none => none) = some (c :: cs, rest)
            rw [ih, h3]
          · rw [if_neg h3]
            by_cases h4 : c = '\r'
            · rw [if_pos h4]
              show (match parseStringBodyAux f (escapeString cs ++ '"' :: rest) with
                | some (body, r) => some ('\r' :: body, r)
                | none => none) = some (c :: cs, rest)
              rw [ih, h4]
            · rw [if_neg h4]
              by_cases h5 : c = '\t'
              · rw [if_pos h5]
                show (match parseStringBodyAux f (escapeString cs ++ '"' :: rest) with
                  | some (body, r) => some ('\t' :: body, r)
                  | none => none) = some (c :: cs, rest)
                rw [ih, h5]
              · rw [if_neg h5]
                by_cases h6 : c.toNat = 8
                · rw [if_pos h6]
                  have hc : Char.ofNat 8 = c := by
                    rw [← h6, Char.ofNat_toNat]
                  show (match parseStringBodyAux f (escapeString cs ++ '"' :: rest) with
                    | some (body, r) => some (Char.ofNat 8 :: body, r)
                    | none => none) = some (c :: cs, rest)
                  rw [ih, hc]
                · rw [if_neg h6]
                  by_cases h7 : c.toNat = 12
                  · rw [if_pos h7]
                    have hc : Char.ofNat 12 = c := by
                      rw [← h7, Char.ofNat_toNat]
                    show (match parseStringBodyAux f (escapeString cs ++ '"' :: rest) with
                      | some (body, r) => some (Char.ofNat 12 :: body, r)
                      | none => none) = some (c :: cs, rest)
                    rw [ih, hc]
                  · rw [if_neg h7]
                    by_cases h8 : c.toNat < 32
                    · rw [if_pos h8]
                      show (match hexVal '0', hexVal '0',
                          hexVal (hexDigitChar (c.toNat / 16)),
                          hexVal (hexDigitChar (c.toNat % 16)) with
                        | some a, some b, some c3, some d =>
                            if 0xD800 ≤ a * 4096 + b * 256 + c3 * 16 + d ∧
                                a * 4096 + b * 256 + c3 * 16 + d < 0xE000 then none
                            else
                              match parseStringBodyAux f (escapeString cs ++ '"' :: rest) with
                              | some (body, r) =>
                                  some (Char.ofNat (a * 4096 + b * 256 + c3 * 16 + d)
                                    :: body, r)
                              | none => none
                        | _, _, _, _ => none) = some (c :: cs, rest)
                      rw [show hexVal '0' = some 0 from rfl,
                        hexVal_hexDigitChar (c.toNat / 16) (by omega),
                        hexVal_hexDigitChar (c.toNat % 16) (by omega)]
                      show (if 0xD800 ≤ 0 * 4096 + 0 * 256 + c.toNat / 16 * 16 + c.toNat % 16 ∧
                            0 * 4096 + 0 * 256 + c.toNat / 16 * 16 + c.toNat % 16 < 0xE000 then none
                          else
                            match parseStringBodyAux f (escapeString cs ++ '"' :: rest) with
                            | some (body, r) =>
                                some (Char.ofNat
                                  (0 * 4096 + 0 * 256 + c.toNat / 16 * 16 + c.toNat % 16)
                                  :: body, r)
                            | none => none) = some (c :: cs, rest)
                      rw [show 0 * 4096 + 0 * 256 + c.toNat / 16 * 16 + c.toNat % 16 = c.toNat
                          from by omega,
                        if_neg (by omega), ih, Char.ofNat_toNat]
                    · rw [if_neg h8]
                      show parseStringBodyAux (f + 1) (c :: (escapeString cs ++ '"' :: rest))
                          = some (c :: cs, rest)
                      unfold parseStringBodyAux
                      rw [if_neg h1, if_neg h2, if_neg (by omega)]
                      show (match parseStringBodyAux f (escapeString cs ++ '"' :: rest) with
                        | some (body, r) => some (c :: body, r)
                        | none => none) = some (c :: cs, rest)
                      rw [ih]

theorem parseStringBody_escape (cs rest : List Char) :
    parseStringBody (escapeString cs ++ '"' :: rest) = some (cs, rest) := by
  unfold parseStringBody
  apply parseStringBodyAux_escape
  simp only [List.length_append, List.length_cons]
  omega

theorem parseElems_strings :
    ∀ (xs : List String) (x : String) (f : Nat) (rest : List Char),
      xs.length + 1 ≤ f →
      parseElems (f + 1) (printElemsAux (x :: xs) ++ ']' :: rest)
        = some (Json.str x :: xs.map Json.str, rest)
  | [], x, f, rest, h => by
      obtain ⟨f0, rfl⟩ : ∃ f0, f = f0 + 1 := ⟨f - 1, by omega⟩
      show parseElems (f0 + 1 + 1) (printString x.data ++ ']' :: rest)
          = some ([Json.str x], rest)
      rw [parseElems_succ, printString_append, parseVal_quote, parseStringBody_escape]
      show some ([Json.str (String.mk x.data)], rest) = some ([Json.str x], rest)
      rfl
  | y :: ys, x, f, rest, h => by
      obtain ⟨f0, rfl⟩ : ∃ f0, f = f0 + 1 := ⟨f - 1, by omega⟩
      have ih := parseElems_strings ys y f0 rest (by
        simp only [List.length_cons] at h
        omega)
      show parseElems (f0 + 1 + 1)
          ((printString x.data ++ ',' :: printElemsAux (y :: ys)) ++ ']' :: rest)
          = some (Json.str x :: (y :: ys).map Json.str, rest)
      rw [List.append_assoc, List.cons_append, parseElems_succ, printString_append,
        parseVal_quote, parseStringBody_escape]
      show (match parseElems (f0 + 1) (printElemsAux (y :: ys) ++ ']' :: rest) with
        | some (vs, rest3) => some (Json.str x :: vs, rest3)
        | none => none) = some (Json.str x :: (y :: ys).map Json.str, rest)
      rw [ih]
      rfl

/-- One object member whose value is a string, with further members
after the comma. -/
theorem parseMembers_str_more (f : Nat) (k s : String) (MORE : List Char) :
    parseMembers (f + 1 + 1)
      (printString k.data ++ ':' :: (printString s.data ++ ',' :: MORE))
      = (match parseMembers (f + 1) MORE with
        | some (kvs, r) => some ((k, Json.str s) :: kvs, r)
        | none => none) := by
  rw [printString_append, parseMembers_step, parseStringBody_escape]
  show (match parseVal (f + 1) (printString s.data ++ ',' :: MORE) with
    | none => none
    | some (v, rest2) =>
        match skipWs rest2 with
        | ',' :: rest3 =>
            match parseMembers (f + 1) rest3 with
            | some (kvs, rest4) => some ((String.mk k.data, v) :: kvs, rest4)
            | none => none
        | r :: rest3 =>
            if r = rbrace then some ([(String.mk k.data, v)], rest3)
            else none
        | [] => none) = _
  rw [printString_append, parseVal_quote, parseStringBody_escape]
  show (match parseMembers (f + 1) MORE with
    | some (kvs, rest4) => some ((k, Json.str s) :: kvs, rest4)
    | none => none) = _
  rfl

/-- The last object member, with a string value, closed by the brace. -/
theorem parseMembers_str_last (f : Nat) (k s : String) :
    parseMembers (f + 1 + 1)
      (printString k.data ++ ':' :: (printString s.data ++ [rbrace]))
      = some ([(k, Json.str s)], []) := by
  rw [printString_append, parseMembers_step, parseStringBody_escape]
  show (match parseVal (f + 1) (printString s.data ++ [rbrace]) with
    | none => none
    | some (v, rest2) =>
        match skipWs rest2 with
        | ',' :: rest3 =>
            match parseMembers (f + 1) rest3 with
            | some (kvs, rest4) => some ((String.mk k.data, v) :: kvs, rest4)
            | none => none
        | r :: rest3 =>
            if r = rbrace then some ([(String.mk k.data, v)], rest3)
            else none
        | [] => none) = _
  rw [printString_append, parseVal_quote, parseStringBody_escape]
  show some ([(k, Json.str s)], ([] : List Char)) = some ([(k, Json.str s)], [])
  rfl

/-- The gadgets member: its value is an array of strings, with further
members after the comma. -/
theorem parseMembers_arr_more (f : Nat) (k : String) (gadgets : List String)
    (MORE : List Char) (hf : gadgets.length + 1 ≤ f) :
    parseMembers (f + 1 + 1)
      (printString k.data ++ ':' :: (printStrList gadgets ++ ',' :: MORE))
      = (match parseMembers (f + 1) MORE with
        | some (kvs, r) => some ((k, Json.arr (gadgets.map Json.str)) :: kvs, r)
        | none => none) := by
  rw [printString_append, parseMembers_step, parseStringBody_escape]
  show (match parseVal (f + 1) (printStrList gadgets ++ ',' :: MORE) with
    | none => none
    | some (v, rest2) =>
        match skipWs rest2 with
        | ',' :: rest3 =>
            match parseMembers (f + 1) rest3 with
            | some (kvs, rest4) => some ((String.mk k.data, v) :: kvs, rest4)
            | none => none
        | r :: rest3 =>
            if r = rbrace then some ([(String.mk k.data, v)], rest3)
            else none
        | [] => none) = _
  cases gadgets with
  | nil =>
      show (match parseVal (f + 1) ('[' :: (']' :: (',' :: MORE))) with
        | none => none
        | some (v, rest2) =>
            match skipWs rest2 with
            | ',' :: rest3 =>
                match parseMembers (f + 1) rest3 with
                | some (kvs, rest4) => some ((String.mk k.data, v) :: kvs, rest4)
                | none => none
            | r :: rest3 =>
                if r = rbrace then some ([(String.mk k.data, v)], rest3)
                else none
            | [] => none) = _
      rw [parseVal_lbracket]
      show (match parseMembers (f + 1) MORE with
        | some (kvs, rest4) => some ((k, Json.arr []) :: kvs, rest4)
        | none => none) = _
      rfl
  | cons g gs =>
      obtain ⟨f0, rfl⟩ : ∃ f0, f = f0 + 1 := ⟨f - 1, by omega⟩
      have harr : printStrList (g :: gs) ++ ',' :: MORE
          = '[' :: (printElemsAux (g :: gs) ++ ']' :: (',' :: MORE)) := by
        simp [printStrList, List.cons_append, List.append_assoc]
      rw [harr, parseVal_lbracket]
      obtain ⟨Y, hX⟩ : ∃ Y, printElemsAux (g :: gs) ++ ']' :: (',' :: MORE) = '"' :: Y := by
        cases gs with
        | nil =>
            refine ⟨escapeString g.data ++ '"' :: (']' :: (',' :: MORE)), ?_⟩
            show printString g.data ++ ']' :: (',' :: MORE) = _
            rw [printString_append]
        | cons y rest =>
            refine ⟨escapeString g.data ++
              '"' :: (',' :: (printElemsAux (y :: rest) ++ ']' :: (',' :: MORE))), ?_⟩
            show (printString g.data ++ ',' :: printElemsAux (y :: rest))
                ++ ']' :: (',' :: MORE) = _
            rw [List.append_assoc, List.cons_append, printString_append]
      rw [hX]
      show (match (match parseElems (f0 + 1) ('"' :: Y) with
          | some (xs, rest2) => some (Json.arr xs, rest2)
          | none => none) with
        | none => none
        | some (v, rest2) =>
            match skipWs rest2 with
            | ',' :: rest3 =>
                match parseMembers (f0 + 1 + 1) rest3 with
                | some (kvs, rest4) => some ((k, v) :: kvs, rest4)
                | none => none
            | r :: rest3 =>
                if r = rbrace then some ([(k, v)], rest3)
                else none
            | [] => none) = _
      rw [← hX, parseElems_strings gs g f0 (',' :: MORE) (by
        simp only [List.length_cons] at hf
        omega)]
      rfl

/-! ## Witness theorems -/

theorem merge_error_atomic_witness :
    (mergeOrKeep witCatalogBad witRaw witDesc).1.version = witCatalogBad.version ∧
    (mergeOrKeep witCatalogBad witRaw witDesc).1.updatedAt = witCatalogBad.updatedAt ∧
    (mergeOrKeep witCatalogBad witRaw witDesc).1.weapons = witCatalogBad.weapons ∧
    (mergeOrKeep witCatalogBad witRaw witDesc).1.gadgets = witCatalogBad.gadgets ∧
    (mergeOrKeep witCatalogBad witRaw witDesc).1.specializations = witCatalogBad.specializations ∧
    (mergeOrKeep witCatalogBad witRaw witDesc).1.meta = witCatalogBad.meta ∧
    (mergeOrKeep witCatalogBad witRaw witDesc).1.provenance = witCatalogBad.provenance :=
  merge_error_atomic witCatalogBad witRaw witDesc
    (.mergeError "malformed catalog version") rfl

theorem merge_version_bump_witness :
    ∃ ma mi pa, parseVersion witCatalog.version = some (ma, mi, pa) ∧
      parseVersion witMerged.version = some (ma, mi, pa + 1) :=
  merge_version_bump witCatalog witRaw witDesc witMerged (by rfl)

theorem merge_provenance_append_witness :
    ∃ entry, witMerged.provenance = witCatalog.provenance ++ [entry] :=
  merge_provenance_append witCatalog witRaw witDesc witMerged (by rfl)

theorem normalize_spec_witness :
    ∃ err, normalize witRawBad = .error err :=
  (normalize_spec witRawBad).1.2 (Or.inl ⟨witRawBadEntity, by decide, rfl⟩)

theorem merge_overlay_witness :
    overlayOK witCatalog.weapons witDelta.weapons witMerged.weapons ∧
    overlayOK witCatalog.gadgets witDelta.gadgets witMerged.gadgets ∧
    overlayOK witCatalog.specializations witDelta.specializations witMerged.specializations :=
  merge_overlay witCatalog witRaw witDesc witMerged witDelta (by rfl) (by rfl)
    (by decide) (by decide) (by decide) (by decide) (by decide) (by decide)

theorem merge_idempotent_witness :
    ∃ cat2, merge witMerged witRaw witDesc = .ok cat2 ∧
      cat2.weapons = witMerged.weapons ∧ cat2.gadgets = witMerged.gadgets ∧
      cat2.specializations = witMerged.specializations ∧ cat2.meta = witMerged.meta ∧
      cat2.updatedAt = witMerged.updatedAt ∧
      cat2.provenance.length = witMerged.provenance.length + 1 ∧
      (∃ ma mi pa, parseVersion witMerged.version = some (ma, mi, pa) ∧
        parseVersion cat2.version = some (ma, mi, pa + 1)) :=
  merge_idempotent witCatalog witRaw witDesc witMerged (by rfl)
    (by decide) (by decide) (by decide)

theorem merge_malformed_version_witness :
    merge witCatalogBad witRaw witDesc = .error (.mergeError "malformed catalog version") ∧
      mergeOrKeep witCatalogBad witRaw witDesc
        = (witCatalogBad, some (.mergeError "malformed catalog version")) :=
  merge_malformed_version witCatalogBad witRaw witDesc rfl

/-! ## The payload round trip and the codec claims -/

theorem printString_length_ge (s : List Char) : 2 ≤ (printString s).length := by
  simp only [printString, List.length_cons, List.length_append, List.length_singleton]
  omega

theorem printElemsAux_length_ge : ∀ xs : List String, xs.length ≤ (printElemsAux xs).length
  | [] => by simp [printElemsAux]
  | [x] => by
      have h := printString_length_ge x.data
      simp only [printElemsAux, List.length_cons, List.length_nil]
      omega
  | x :: y :: rest => by
      have h1 := printString_length_ge x.data
      have h2 := printElemsAux_length_ge (y :: rest)
      simp only [printElemsAux, List.length_cons, List.length_append]
      simp only [List.length_cons] at h2
      omega

theorem printPayload_length_ge (l : Loadout) :
    l.gadgets.length + 6 ≤ (printPayload l).length := by
  have h1 := printString_length_ge l.«class».data
  have h2 := printString_length_ge l.weapon.data
  have h3 := printString_length_ge l.specialization.data
  have h4 := printElemsAux_length_ge l.gadgets
  simp only [printPayload, printStrList, List.length_cons, List.length_append,
    List.length_singleton, List.length_nil]
  omega

/-- Parsing the printed payload with enough fuel gives back the payload
value and consumes the whole input. -/
theorem parseVal_printPayload (l : Loadout) (f : Nat)
    (hf : l.gadgets.length + 6 ≤ f) :
    parseVal (f + 1) (printPayload l) = some (payloadJson l, []) := by
  obtain ⟨e, rfl⟩ : ∃ e, f = e + 1 + 1 + 1 + 1 + 1 + 1 := ⟨f - 6, by omega⟩
  have hg : l.gadgets.length + 1 ≤ e + 1 := by omega
  show parseVal (e + 1 + 1 + 1 + 1 + 1 + 1 + 1)
      (lbrace :: (printString "v".data ++ ':' :: (printString SCHEMA_VERSION.data ++ ',' ::
        (printString "c".data ++ ':' :: (printString l.«class».data ++ ',' ::
          (printString "w".data ++ ':' :: (printString l.weapon.data ++ ',' ::
            (printString "g".data ++ ':' :: (printStrList l.gadgets ++ ',' ::
              (printString "s".data ++ ':' ::
                (printString l.specialization.data ++ [rbrace])))))))))))
      = some (payloadJson l, [])
  rw [parseVal_lbrace]
  show (match parseMembers (e + 1 + 1 + 1 + 1 + 1 + 1)
      (printString "v".data ++ ':' :: (printString SCHEMA_VERSION.data ++ ',' ::
        (printString "c".data ++ ':' :: (printString l.«class».data ++ ',' ::
          (printString "w".data ++ ':' :: (printString l.weapon.data ++ ',' ::
            (printString "g".data ++ ':' :: (printStrList l.gadgets ++ ',' ::
              (printString "s".data ++ ':' ::
                (printString l.specialization.data ++ [rbrace])))))))))) with
    | some (kvs, rest2) => some (Json.obj kvs, rest2)
    | none => none) = some (payloadJson l, [])
  rw [parseMembers_str_more]
  rw [parseMembers_str_more]
  rw [parseMembers_str_more]
  rw [parseMembers_arr_more (e + 1) "g" l.gadgets _ hg]
  rw [parseMembers_str_last]
  rfl

/-- The full JSON round trip of the payload. -/
theorem parseJson_printPayload (l : Loadout) :
    parseJson (printPayload l) = some (payloadJson l) := by
  have hlen := printPayload_length_ge l
  have h := parseVal_printPayload l (printPayload l).length (by omega)
  unfold parseJson
  rw [h]
  rfl

theorem isEmpty_eq (s : String) (h : s.isEmpty = true) : s = "" := by
  cases s with
  | mk data =>
      cases data with
      | nil => rfl
      | cons c cs =>
          simp [String.isEmpty, String.endPos, String.utf8ByteSize, String.Pos.ext_iff] at h
          have h2 := c.utf8Size_pos
          omega

/-- The source's truthiness fallback is harmless on strings coming from
the payload: an empty string falls back to the empty string. -/
theorem jsOr_some_str (s : String) : jsOr (some (Json.str s)) (Json.str "") = Json.str s := by
  show (if (!s.isEmpty) = true then Json.str s else Json.str "") = Json.str s
  by_cases h : s.isEmpty = true
  · rw [if_neg (by simp [h]), isEmpty_eq s h]
  · rw [if_pos (by simp [Bool.not_eq_true] at h; simp [h])]

theorem decodeFields_payload (l : Loadout) : decodeFields (payloadJson l) = loadoutToJS l := by
  unfold decodeFields loadoutToJS
  have hc : getProp (payloadJson l) "c" = some (Json.str l.«class») := rfl
  have hw : getProp (payloadJson l) "w" = some (Json.str l.weapon) := rfl
  have hs : getProp (payloadJson l) "s" = some (Json.str l.specialization) := rfl
  have hg : getProp (payloadJson l) "g" = some (Json.arr (l.gadgets.map Json.str)) := rfl
  rw [hc, hw, hs, hg, jsOr_some_str, jsOr_some_str, jsOr_some_str]

/-- C8: for every loadout (class, weapon, specialization, gadget list),
decoding the encoded share token succeeds and returns exactly the
loadout's fields (as the JS string/array values `decodeLoadout`
produces), including empty-string fields and an empty gadget list. -/
theorem decodeLoadout_encodeLoadout (l : Loadout) :
    decodeLoadout (encodeLoadout l) = some (loadoutToJS l) := by
  have h1 : tokenBytes (encodeLoadout l) = some (utf8Encode (printPayload l)) :=
    tokenBytes_encode (utf8Encode (printPayload l)) (utf8Encode_lt (printPayload l))
  have hv : getProp (payloadJson l) "v" = some (Json.str SCHEMA_VERSION) := rfl
  unfold decodeLoadout
  rw [h1]
  show (match utf8Decode (utf8Encode (printPayload l)) with
    | none => none
    | some jsonChars =>
        match parseJson jsonChars with
        | none => none
        | some obj =>
            match getProp obj "v" with
            | some (.str ver) =>
                if ver = SCHEMA_VERSION then some (decodeFields obj)
                else none
            | _ => none) = some (loadoutToJS l)
  rw [utf8_roundtrip]
  show (match parseJson (printPayload l) with
    | none => none
    | some obj =>
        match getProp obj "v" with
        | some (.str ver) =>
            if ver = SCHEMA_VERSION then some (decodeFields obj)
            else none
        | _ => none) = some (loadoutToJS l)
  rw [parseJson_printPayload]
  show (match getProp (payloadJson l) "v" with
    | some (.str ver) =>
        if ver = SCHEMA_VERSION then some (decodeFields (payloadJson l))
        else none
    | _ => none) = some (loadoutToJS l)
  rw [hv]
  show (if SCHEMA_VERSION = SCHEMA_VERSION
      then some (decodeFields (payloadJson l)) else none) = some (loadoutToJS l)
  rw [if_pos rfl, decodeFields_payload]

/-- C9: `decodeLoadout` is a total function into an optional result, and
whenever it succeeds the token passed every stage: base64-url decoding,
UTF-8 decoding, JSON parsing, and the schema-version check against
`"v1"`.  Contrapositively, a token failing any of those stages decodes
to `none` (the source's `null`). -/
theorem decodeLoadout_guard (token : String)
    (h : (decodeLoadout token).isSome = true) :
    ∃ bytes js j, tokenBytes token = some bytes ∧ utf8Decode bytes = some js ∧
      parseJson js = some j ∧ getProp j "v" = some (Json.str SCHEMA_VERSION) := by
  unfold decodeLoadout at h
  cases hb : tokenBytes token with
  | none => rw [hb] at h; exact Bool.noConfusion h
  | some bytes =>
      rw [hb] at h
      have hA : (match utf8Decode bytes with
        | none => none
        | some jsonChars =>
            match parseJson jsonChars with
            | none => none
            | some obj =>
                match getProp obj "v" with
                | some (.str ver) =>
                    if ver = SCHEMA_VERSION then some (decodeFields obj) else none
                | _ => none).isSome = true := h
      cases hu : utf8Decode bytes with
      | none => rw [hu] at hA; exact Bool.noConfusion hA
      | some js =>
          rw [hu] at hA
          have hB : (match parseJson js with
            | none => none
            | some obj =>
                match getProp obj "v" with
                | some (.str ver) =>
                    if ver = SCHEMA_VERSION then some (decodeFields obj) else none
                | _ => none).isSome = true := hA
          cases hj : parseJson js with
          | none => rw [hj] at hB; exact Bool.noConfusion hB
          | some j =>
              rw [hj] at hB
              have hC : (match getProp j "v" with
                | some (.str ver) =>
                    if ver = SCHEMA_VERSION then some (decodeFields j) else none
                | _ => none).isSome = true := hB
              cases hv : getProp j "v" with
              | none => rw [hv] at hC; exact Bool.noConfusion hC
              | some v =>
                  rw [hv] at hC
                  cases v with
                  | null => exact Bool.noConfusion hC
                  | bool b => exact Bool.noConfusion hC
                  | num lit => exact Bool.noConfusion hC
                  | arr xs => exact Bool.noConfusion hC
                  | obj kvs => exact Bool.noConfusion hC
                  | str ver =>
                      have h2 : (if ver = SCHEMA_VERSION
                          then some (decodeFields j)
                          else (none : Option JSLoadout)).isSome = true := hC
                      by_cases hveq : ver = SCHEMA_VERSION
                      · exact ⟨bytes, js, j, rfl, hu, hj, by rw [hv, hveq]⟩
                      · rw [if_neg hveq] at h2
                        exact Bool.noConfusion h2

theorem decodeLoadout_guard_witness :
    ∃ bytes js j, tokenBytes "eyJ2IjoidjEifQ" = some bytes ∧
      utf8Decode bytes = some js ∧ parseJson js = some j ∧
      getProp j "v" = some (Json.str SCHEMA_VERSION) :=
  decodeLoadout_guard "eyJ2IjoidjEifQ" (by decide)

/-- C10: starting from at most three selected gadgets, one toggle keeps
at most three: a present name is removed (first occurrence), an absent
name is appended only when fewer than three are selected, and otherwise
the list is unchanged. -/
theorem handleGadgetToggle_invariant (gadgets : List String) (name : String)
    (h : gadgets.length ≤ 3) :
    (handleGadgetToggle gadgets name).length ≤ 3 ∧
      (gadgets.contains name = true →
        handleGadgetToggle gadgets name = gadgets.erase name) ∧
      (gadgets.contains name = false → gadgets.length < 3 →
        handleGadgetToggle gadgets name = gadgets ++ [name]) ∧
      (gadgets.contains name = false → 3 ≤ gadgets.length →
        handleGadgetToggle gadgets name = gadgets) := by
  unfold handleGadgetToggle
  by_cases hc : gadgets.contains name = true
  · rw [if_pos hc]
    refine ⟨?_, fun _ => rfl, fun hnc _ => by rw [hnc] at hc; exact Bool.noConfusion hc,
      fun hnc _ => by rw [hnc] at hc; exact Bool.noConfusion hc⟩
    have h2 := gadgets.length_erase_le name
    omega
  · rw [if_neg hc]
    by_cases hlen : gadgets.length < 3
    · rw [if_pos hlen]
      refine ⟨?_, fun hcc => absurd hcc hc, fun _ _ => rfl, fun _ h3 => by omega⟩
      simp only [List.length_append, List.length_singleton]
      omega
    · rw [if_neg hlen]
      exact ⟨h, fun hcc => absurd hcc hc, fun _ hl => absurd hl hlen, fun _ _ => rfl⟩

theorem handleGadgetToggle_invariant_witness :
    (["a", "b"] : List String).length ≤ 3 ∧
      ((handleGadgetToggle ["a", "b"] "c").length ≤ 3 ∧
        ((["a", "b"] : List String).contains "c" = true →
          handleGadgetToggle ["a", "b"] "c" = (["a", "b"] : List String).erase "c") ∧
        ((["a", "b"] : List String).contains "c" = false →
          (["a", "b"] : List String).length < 3 →
          handleGadgetToggle ["a", "b"] "c" = ["a", "b"] ++ ["c"]) ∧
        ((["a", "b"] : List String).contains "c" = false →
          3 ≤ (["a", "b"] : List String).length →
          handleGadgetToggle ["a", "b"] "c" = ["a", "b"])) :=
  ⟨by decide, handleGadgetToggle_invariant ["a", "b"] "c" (by decide)⟩

end Metaloadout
